import Mathlib

/-!
Verification of `reports/summary.py` (android-ebpf-monitor).

The Python module is shallowly embedded:
* JSON values become the inductive type `JVal`; events (JSON objects kept by
  `load_events`) become association lists `Event := List (String × JVal)`.
* Python `dict` / `Counter` become association lists with insertion order,
  overwrite-on-insert semantics, and Python `==` key equality (`pyEq`).
* Operations that can raise in Python (attribute access on a wrong type,
  unhashable dict keys, ill-typed arithmetic, mixed-type comparisons) return
  `Except String _`; everything else is a total function.
* Python `sorted` (a stable sort) is modelled by `List.insertionSort`, which
  is stable for the total preorders used here.
* Python `int` and `float` are modelled by `Int` and `ℚ` (floats that occur
  in the claims are exactly representable).
-/

/-- A JSON value, as produced by `json.loads`. `bool` is kept separate from
`int` because Python distinguishes them for `isinstance` checks (while
`True == 1` still holds for `==` and dict keys, see `pyEq`). -/
inductive JVal where
  | null : JVal
  | bool : Bool → JVal
  | int : Int → JVal
  | float : ℚ → JVal
  | str : String → JVal
  | arr : List JVal → JVal
  | obj : List (String × JVal) → JVal

mutual

/-- Structural (Python `is`-free) equality test on JSON values. -/
def JVal.beq : JVal → JVal → Bool
  | .null, .null => true
  | .bool a, .bool b => a == b
  | .int a, .int b => a == b
  | .float a, .float b => a == b
  | .str a, .str b => a == b
  | .arr a, .arr b => JVal.beqL a b
  | .obj a, .obj b => JVal.beqO a b
  | _, _ => false

def JVal.beqL : List JVal → List JVal → Bool
  | [], [] => true
  | x :: xs, y :: ys => JVal.beq x y && JVal.beqL xs ys
  | _, _ => false

def JVal.beqO : List (String × JVal) → List (String × JVal) → Bool
  | [], [] => true
  | (k, x) :: xs, (l, y) :: ys => k == l && JVal.beq x y && JVal.beqO xs ys
  | _, _ => false

end

instance : BEq JVal := ⟨JVal.beq⟩

/-- Numeric value of a `JVal` when Python treats it as a number for `==`
(`True == 1`, `1 == 1.0`). -/
def JVal.numVal : JVal → Option ℚ
  | .bool b => some (if b then 1 else 0)
  | .int n => some (n : ℚ)
  | .float q => some q
  | _ => none

/-- Python `==` on the values we model: numeric cross-type equality for
bool/int/float, structural equality otherwise. -/
def pyEq (a b : JVal) : Bool :=
  match a.numVal, b.numVal with
  | some x, some y => x == y
  | _, _ => a == b

/-- Python truthiness (`bool(x)`). -/
def pyTruthy : JVal → Bool
  | .null => false
  | .bool b => b
  | .int n => n != 0
  | .float q => q != 0
  | .str s => s != ""
  | .arr xs => !xs.isEmpty
  | .obj fs => !fs.isEmpty

/-- Python hashability: lists and dicts are unhashable (using one as a dict
key raises `TypeError`). -/
def hashableJ : JVal → Bool
  | .arr _ => false
  | .obj _ => false
  | _ => true

/-- Rendering of a `JVal` inside an f-string (`f"pid:{to_pid}"`).  Only
scalars are rendered faithfully; container rendering is approximated (no
claim depends on it). -/
def jvalStr : JVal → String
  | .null => "None"
  | .bool b => if b then "True" else "False"
  | .int n => toString n
  | .float q => toString q
  | .str s => s
  | .arr _ => "[...]"
  | .obj _ => "{...}"

/-- Python `<` on the values appearing as sort keys: numbers compare
numerically, strings lexicographically, anything else raises `TypeError`. -/
def pyLt (a b : JVal) : Except String Bool :=
  match a.numVal, b.numVal with
  | some x, some y => .ok (decide (x < y))
  | _, _ =>
    match a, b with
    | .str s, .str t => .ok (decide (s < t))
    | _, _ => .error "TypeError: unorderable types"

/-- An event record: a JSON object kept by `load_events` (keys are unique,
insertion-ordered). -/
abbrev Event := List (String × JVal)

/-- `ev.get(key, default)` on an event (always a dict, so total). -/
def evGet (ev : Event) (k : String) (d : JVal) : JVal :=
  match ev.find? (fun p => p.1 == k) with
  | some p => p.2
  | none => d

/-- `x.get(key, default)` on an arbitrary value: raises `AttributeError`
unless `x` is a dict. -/
def dGet (x : JVal) (k : String) (d : JVal) : Except String JVal :=
  match x with
  | .obj fs =>
    .ok (match fs.find? (fun p => p.1 == k) with
         | some p => p.2
         | none => d)
  | _ => .error "AttributeError: .get on non-dict"

/-- Total variant of `dGet`, used in specification-side definitions
(returns the default where `dGet` would raise). -/
def dGetT (x : JVal) (k : String) (d : JVal) : JVal :=
  match x with
  | .obj fs =>
    (match fs.find? (fun p => p.1 == k) with
     | some p => p.2
     | none => d)
  | _ => d

/-- A Python dict with `JVal` keys: insertion-ordered association list.
Lookup/insert use `pyEq` and raise on unhashable keys. -/
abbrev PyMap (α : Type) := List (JVal × α)

/-- `m.get(k, d)` (raises `TypeError` on an unhashable key). -/
def mapGetD {α : Type} (m : PyMap α) (k : JVal) (d : α) : Except String α :=
  if hashableJ k then
    .ok (match m.find? (fun p => pyEq p.1 k) with
         | some p => p.2
         | none => d)
  else .error "TypeError: unhashable type"

/-- `m[k] = v` (overwrite in place, keep insertion position; raises on an
unhashable key). -/
def mapSet {α : Type} (m : PyMap α) (k : JVal) (v : α) : Except String (PyMap α) :=
  if hashableJ k then
    .ok (if m.any (fun p => pyEq p.1 k)
         then m.map (fun p => if pyEq p.1 k then (p.1, v) else p)
         else m ++ [(k, v)])
  else .error "TypeError: unhashable type"

/-- `Counter[k] += 1` for a counter with `JVal` keys. -/
def counterAdd (m : PyMap Nat) (k : JVal) : Except String (PyMap Nat) := do
  let c ← mapGetD m k 0
  mapSet m k (c + 1)

/-- A counter keyed by strings (all insert sites guarantee string keys). -/
abbrev SCounter := List (String × Nat)

def scGet (m : SCounter) (k : String) : Nat :=
  match m.find? (fun p => p.1 == k) with
  | some p => p.2
  | none => 0

def scAdd (m : SCounter) (k : String) : SCounter :=
  if m.any (fun p => p.1 == k)
  then m.map (fun p => if p.1 == k then (p.1, p.2 + 1) else p)
  else m ++ [(k, 1)]

/-- A counter keyed by ints (time buckets, errno values). -/
abbrev ICounter := List (Int × Nat)

def icGet (m : ICounter) (k : Int) : Nat :=
  match m.find? (fun p => p.1 == k) with
  | some p => p.2
  | none => 0

def icAdd (m : ICounter) (k : Int) : ICounter :=
  if m.any (fun p => p.1 == k)
  then m.map (fun p => if p.1 == k then (p.1, p.2 + 1) else p)
  else m ++ [(k, 1)]

/-- Python `int(x)` truncation for a rational (toward zero). -/
def pyIntOfRat (q : ℚ) : Int := q.num.tdiv (q.den : Int)

/-- Parse the digits of a decimal integer literal. -/
def digitsToNat : List Char → Option Nat
  | [] => none
  | cs => cs.foldlM (fun acc c =>
      if c.isDigit then some (acc * 10 + (c.toNat - 48)) else none) 0

/-- Python `int(s)` on a string: optional surrounding whitespace, optional
sign, digits; anything else raises `ValueError`. -/
def pyIntOfStr (s : String) : Option Int :=
  let cs := (s.toList.dropWhile (fun c => c.isWhitespace)).reverse
  let cs := (cs.dropWhile (fun c => c.isWhitespace)).reverse
  match cs with
  | '-' :: rest => (digitsToNat rest).map (fun n => -(n : Int))
  | '+' :: rest => (digitsToNat rest).map (fun n => (n : Int))
  | rest => (digitsToNat rest).map (fun n => (n : Int))

/-- Python `int(v)` on a JSON value; `none` models the raised
`ValueError`/`TypeError` (always caught at the call sites). -/
def pyIntCoerce : JVal → Option Int
  | .int n => some n
  | .bool b => some (if b then 1 else 0)
  | .float q => some (pyIntOfRat q)
  | .str s => pyIntOfStr s
  | _ => none

/-- `isinstance(v, int)` (`bool` is a subclass of `int` in Python). -/
def pyIsInt : JVal → Bool
  | .int _ => true
  | .bool _ => true
  | _ => false

/-- `isinstance(v, (int, float))`. -/
def pyIsNum : JVal → Bool
  | .int _ => true
  | .bool _ => true
  | .float _ => true
  | _ => false

/-- `isinstance(v, str)`. -/
def pyIsStr : JVal → Bool
  | .str _ => true
  | _ => false

/-- Integer value of `v` when `isinstance(v, int)` holds. -/
def pyIntVal : JVal → Int
  | .int n => n
  | .bool b => if b then 1 else 0
  | _ => 0

/-- Numeric (rational) value of `v` when `isinstance(v, (int, float))`. -/
def pyNumVal : JVal → ℚ
  | .int n => (n : ℚ)
  | .bool b => if b then 1 else 0
  | .float q => q
  | _ => 0

/-- `acc + v` where `acc` is a Python int accumulator: succeeds for ints and
bools, raises `TypeError` otherwise (floats are excluded from the model's
integer accumulators; no claim exercises them). -/
def pyAddInt (acc : Int) (v : JVal) : Except String Int :=
  match v with
  | .int n => .ok (acc + n)
  | .bool b => .ok (acc + if b then 1 else 0)
  | _ => .error "TypeError: unsupported operand type for +"

/-- `v or (0 : int)` — Python `or` returns `v` if truthy, else the
right-hand side. -/
def pyOrZero (v : JVal) : JVal :=
  if pyTruthy v then v else .int 0

/-- `s.strip()` on an arbitrary value: raises `AttributeError` unless `s`
is a string. -/
def pyStrip (v : JVal) : Except String String :=
  match v with
  | .str s => .ok (s.toList.dropWhile Char.isWhitespace
      |>.reverse.dropWhile Char.isWhitespace |>.reverse |> String.mk)
  | _ => .error "AttributeError: .strip on non-str"

/-- `line.strip()` on a genuine string (used by `load_events`). -/
def strStrip (s : String) : String :=
  s.toList.dropWhile Char.isWhitespace
    |>.reverse.dropWhile Char.isWhitespace |>.reverse |> String.mk

/-!  Time helpers (`get_ts_ns`, `sort_events_by_time`, `window_rate`). -/

/-- `get_ts_ns`: `ev.get("ts_ns")`, `None` stays `None`, otherwise `int(v)`
with `ValueError`/`TypeError` recovered as `None`. -/
def get_ts_ns (ev : Event) : Option Int :=
  match evGet ev "ts_ns" .null with
  | .null => none
  | v => pyIntCoerce v

/-- The Python sort key `(get_ts_ns(e) is None, get_ts_ns(e) or 0)`. -/
def evKey (e : Event) : Bool × Int :=
  match get_ts_ns e with
  | none => (true, 0)
  | some n => (false, n)

/-- Lexicographic `<=` on `(bool, int)` keys, `False < True` as in Python. -/
def boolIntLe (a b : Bool × Int) : Prop :=
  (a.1 = false ∧ b.1 = true) ∨ (a.1 = b.1 ∧ a.2 ≤ b.2)

instance : DecidableRel boolIntLe := fun a b => by
  unfold boolIntLe; infer_instance

theorem boolIntLe_total (a b : Bool × Int) : boolIntLe a b ∨ boolIntLe b a := by
  rcases a with ⟨ab, an⟩; rcases b with ⟨bb, bn⟩
  unfold boolIntLe
  cases ab <;> cases bb <;> simp <;> omega

theorem boolIntLe_trans {a b c : Bool × Int} (h1 : boolIntLe a b) (h2 : boolIntLe b c) :
    boolIntLe a c := by
  rcases a with ⟨ab, an⟩; rcases b with ⟨bb, bn⟩; rcases c with ⟨cb, cn⟩
  unfold boolIntLe at *
  cases ab <;> cases bb <;> cases cb <;> simp_all <;> omega

/-- The comparison `sorted(events, key=...)` sorts by. -/
def tsRel (e1 e2 : Event) : Prop := boolIntLe (evKey e1) (evKey e2)

instance : DecidableRel tsRel := fun a b => by
  unfold tsRel; infer_instance

instance : IsTotal Event tsRel := ⟨fun x y => boolIntLe_total (evKey x) (evKey y)⟩

instance : IsTrans Event tsRel := ⟨fun _ _ _ => boolIntLe_trans⟩

/-- `sort_events_by_time`: identity on an empty list or when no event has a
parseable `ts_ns`; otherwise a stable sort (Python `sorted`) by the key
`(ts is None, ts or 0)`. -/
def sort_events_by_time (events : List Event) : List Event :=
  if events.isEmpty then events
  else if events.any (fun e => (get_ts_ns e).isSome) then events.insertionSort tsRel
  else events

/-- The result of `window_rate`. -/
inductive RateResult where
  | unavailable (reason : String)
  | available (window_s : ℚ) (peak_rate : ℚ) (peak_start_s : ℚ) (peak_end_s : ℚ)
      (peak_count : Nat) (avg_rate : ℚ) (total_windows : Nat)

/-- Python `max(items, key=count)`: keeps the first element on ties
(replaces the candidate only on a strictly greater key). -/
def pyMaxByCount (l : List (Int × Nat)) : Option (Int × Nat) :=
  match l with
  | [] => none
  | x :: xs => some (xs.foldl (fun best y => if best.2 < y.2 then y else best) x)

/-- Python `min` over a list of ints. -/
def listMinD (l : List Int) (d : Int) : Int :=
  match l with
  | [] => d
  | x :: xs => xs.foldl min x

/-- The per-timestamp bucket index `(t - ts0) // win_ns` (Python floor
division). -/
def bucketOf (ts0 win_ns t : Int) : Int := (t - ts0).fdiv win_ns

/-- The bucket counter built by `window_rate` (factored out for reuse in the
statements): counts per bucket index over the parseable timestamps, keys in
order of first appearance (Counter insertion order). -/
def rateBuckets (events : List Event) (window_s : ℚ) : ICounter :=
  let ts_list := events.filterMap get_ts_ns
  let ts0 := listMinD ts_list 0
  let win_ns := pyIntOfRat (window_s * (1000000000 : ℚ))
  ts_list.foldl (fun m t => icAdd m (bucketOf ts0 win_ns t)) []

/-- `window_rate(events, window_s)`: unavailable with a reason when fewer
than two events carry a parseable `ts_ns`; otherwise buckets timestamps and
reports the peak/avg rates.  `Except` carries the `ZeroDivisionError` raised
when `int(window_s * 1e9)` is 0. -/
def window_rate (events : List Event) (window_s : ℚ) : Except String RateResult :=
  let ts_list := events.filterMap get_ts_ns
  if ts_list.length < 2 then
    .ok (.unavailable "ts_ns missing or too few events")
  else
    let win_ns := pyIntOfRat (window_s * (1000000000 : ℚ))
    if win_ns = 0 then .error "ZeroDivisionError" else
    let buckets := rateBuckets events window_s
    match pyMaxByCount buckets with
    | none => .error "ValueError: max of empty sequence"
    | some (peak_bucket, peak_count) =>
      .ok (.available window_s ((peak_count : ℚ) / window_s)
        ((peak_bucket : ℚ) * window_s) (((peak_bucket : ℚ) + 1) * window_s)
        peak_count
        (((buckets.foldl (fun a p => a + p.2) 0 : Nat) : ℚ) / (max buckets.length 1 : ℚ) / window_s)
        buckets.length)

/-- `errno_from_ret`: `abs(int(ret))` when `int(ret)` succeeds and is
negative, else `None`. -/
def errno_from_ret (ret : JVal) : Option Int :=
  match pyIntCoerce ret with
  | none => none
  | some r => if r < 0 then some (-r) else none

/-- `percentile(sorted_vals, p)`: `none` models the `float("nan")` returned
on an empty list; otherwise the element at the clamped nearest-rank index
`int(p * (n - 1))`. -/
def percentile (sorted_vals : List ℚ) (p : ℚ) : Option ℚ :=
  match sorted_vals with
  | [] => none
  | _ =>
    let n := sorted_vals.length
    let k := pyIntOfRat (p * ((n : ℚ) - 1))
    some (sorted_vals.getD (max 0 (min k ((n : Int) - 1))).toNat 0)

/-!  Binder analytics (`compute_binder_analytics`). -/

/-- One entry of the `transactions` list built by the correlator. -/
structure TxRec where
  debug_id : JVal
  sender_comm : JVal
  sender_pid : JVal
  receiver_comm : JVal
  to_pid : JVal
  code : JVal
  oneway : Bool
  data_size : JVal

/-- Per-edge running statistics (`ipc_graph` values). -/
structure EdgeStats where
  count : Nat
  total_bytes : Int
  codes : PyMap Nat

/-- Equality of edge keys under Python dict semantics (componentwise `==`). -/
def pyEqPair (a b : JVal × JVal) : Bool := pyEq a.1 b.1 && pyEq a.2 b.2

/-- `edge in ipc_graph` / `ipc_graph[edge]` lookup (raises on an unhashable
component). -/
def edgeGet (m : List ((JVal × JVal) × EdgeStats)) (k : JVal × JVal) :
    Except String (Option EdgeStats) :=
  if hashableJ k.1 && hashableJ k.2 then
    .ok ((m.find? (fun p => pyEqPair p.1 k)).map (fun p => p.2))
  else .error "TypeError: unhashable type"

/-- `ipc_graph[edge] = stats` (overwrite in place, keep position). -/
def edgeSet (m : List ((JVal × JVal) × EdgeStats)) (k : JVal × JVal) (v : EdgeStats) :
    Except String (List ((JVal × JVal) × EdgeStats)) :=
  if hashableJ k.1 && hashableJ k.2 then
    .ok (if m.any (fun p => pyEqPair p.1 k)
         then m.map (fun p => if pyEqPair p.1 k then (p.1, v) else p)
         else m ++ [(k, v)])
  else .error "TypeError: unhashable type"

/-- First indexing pass: `alloc_by_id` and `received_by_id` keyed by
`debug_id`, last occurrence winning. -/
def binderIndexStep (maps : PyMap Event × PyMap Event) (ev : Event) :
    Except String (PyMap Event × PyMap Event) := do
  let event := evGet ev "event" (.str "")
  let data := evGet ev "data" (.obj [])
  let debug_id ← dGet data "debug_id" .null
  if debug_id == JVal.null then pure maps
  else if pyEq event (.str "binder_transaction_alloc_buf") then do
    let m1 ← mapSet maps.1 debug_id ev
    pure (m1, maps.2)
  else if pyEq event (.str "binder_transaction_received") then do
    let m2 ← mapSet maps.2 debug_id ev
    pure (maps.1, m2)
  else pure maps

def binderIndex (events : List Event) : Except String (PyMap Event × PyMap Event) :=
  events.foldlM binderIndexStep ([], [])

/-- Mutable state of the transaction loop. -/
structure BState where
  transactions : List TxRec
  ipc : List ((JVal × JVal) × EdgeStats)
  code_usage : PyMap Nat
  oneway_count : Nat
  sync_count : Nat
  total_bytes : Int

def initBState : BState :=
  { transactions := [], ipc := [], code_usage := [],
    oneway_count := 0, sync_count := 0, total_bytes := 0 }

/-- `if code is not None: counter[code] += 1` (the `code is not None`
guard of the loop). -/
def counterAddIfCode (m : PyMap Nat) (code : JVal) : Except String (PyMap Nat) :=
  if !(code == JVal.null) then counterAdd m code else pure m

/-- One iteration of the transaction loop in `compute_binder_analytics`:
skips non-`binder_transaction` events and `reply == 1` transactions, joins
the allocation and received maps, and accumulates every aggregate. -/
def binderStep (alloc_by_id received_by_id : PyMap Event) (st : BState) (ev : Event) :
    Except String BState := do
  if !(pyEq (evGet ev "event" .null) (.str "binder_transaction")) then pure st
  else do
    let reply ← dGet (evGet ev "data" (.obj [])) "reply" .null
    if pyEq reply (.int 1) then pure st
    else do
      let data := evGet ev "data" (.obj [])
      let debug_id ← dGet data "debug_id" .null
      let sender_comm := evGet ev "comm" (.str "unknown")
      let sender_pid := evGet ev "pid" .null
      let to_pid ← dGet data "to_pid" .null
      let code ← dGet data "code" .null
      let oneway ← dGet data "oneway" (.int 0)
      let alloc ← mapGetD alloc_by_id debug_id []
      let data_size ← dGet (evGet alloc "data" (.obj [])) "data_size" (.int 0)
      let total_bytes ← pyAddInt st.total_bytes (pyOrZero data_size)
      let recv ← mapGetD received_by_id debug_id []
      let receiver_comm := evGet recv "comm"
        (if pyTruthy to_pid then .str ("pid:" ++ jvalStr to_pid) else .str "unknown")
      let oneway_count := if pyTruthy oneway then st.oneway_count + 1 else st.oneway_count
      let sync_count := if pyTruthy oneway then st.sync_count else st.sync_count + 1
      let code_usage ← counterAddIfCode st.code_usage code
      let edge := (sender_comm, receiver_comm)
      let found ← edgeGet st.ipc edge
      let stats0 := match found with
        | some s => s
        | none => { count := 0, total_bytes := 0, codes := [] }
      let ebytes ← pyAddInt stats0.total_bytes (pyOrZero data_size)
      let ecodes ← counterAddIfCode stats0.codes code
      let ipc ← edgeSet st.ipc edge
        { count := stats0.count + 1, total_bytes := ebytes, codes := ecodes }
      let tx : TxRec :=
        { debug_id := debug_id, sender_comm := sender_comm, sender_pid := sender_pid,
          receiver_comm := receiver_comm, to_pid := to_pid, code := code,
          oneway := pyTruthy oneway, data_size := data_size }
      pure { transactions := st.transactions ++ [tx], ipc := ipc,
             code_usage := code_usage, oneway_count := oneway_count,
             sync_count := sync_count, total_bytes := total_bytes }

/-- `Counter.most_common(n)`: stable sort by count descending, first `n`. -/
def mostCommon (n : Nat) (c : PyMap Nat) : List (JVal × Nat) :=
  (c.insertionSort (fun a b => b.2 ≤ a.2)).take n

/-- Serialized per-edge record (the source renders the key as the string
`"src → dst"`; the model keeps the structured key, values unchanged). -/
structure EdgeOut where
  count : Nat
  total_bytes : Int
  top_codes : List (JVal × Nat)

/-- The dict returned by `compute_binder_analytics`. -/
structure BinderOut where
  total_transactions : Nat
  oneway : Nat
  sync : Nat
  total_bytes_transferred : Int
  top_codes : List (JVal × Nat)
  ipc_graph : List ((JVal × JVal) × EdgeOut)

/-- `compute_binder_analytics`: index pass, transaction loop, then
serialization (edges sorted by count descending, stable). -/
def compute_binder_analytics (events : List Event) : Except String BinderOut := do
  let maps ← binderIndex events
  let st ← events.foldlM (binderStep maps.1 maps.2) initBState
  let sortedEdges := st.ipc.insertionSort (fun a b => b.2.count ≤ a.2.count)
  pure { total_transactions := st.transactions.length,
         oneway := st.oneway_count,
         sync := st.sync_count,
         total_bytes_transferred := st.total_bytes,
         top_codes := mostCommon 10 st.code_usage,
         ipc_graph := sortedEdges.map (fun p =>
           (p.1, { count := p.2.count, total_bytes := p.2.total_bytes,
                   top_codes := mostCommon 5 p.2.codes })) }

/-!  Process tree (`compute_process_tree`). -/

/-- Int-keyed dict (pids): overwrite in place, keep insertion position. -/
def iMapSet {α : Type} (m : List (Int × α)) (k : Int) (v : α) : List (Int × α) :=
  if m.any (fun p => p.1 == k)
  then m.map (fun p => if p.1 == k then (p.1, v) else p)
  else m ++ [(k, v)]

def iMapGet {α : Type} (m : List (Int × α)) (k : Int) : Option α :=
  (m.find? (fun p => p.1 == k)).map (fun p => p.2)

/-- `pid_to_comm`: last-seen comm per pid (only `int` pids with non-empty
string comms). -/
def pidToComm (events : List Event) : List (Int × String) :=
  events.foldl (fun m ev =>
    let pid := evGet ev "pid" .null
    match evGet ev "comm" .null with
    | .str comm => if pyIsInt pid && comm ≠ "" then iMapSet m (pyIntVal pid) comm else m
    | _ => m) []

/-- `pid_to_ppid`: last-seen ppid per pid (only `int` pids and ppids).
`isinstance(_, int)` also accepts bools, converted via `pyIntVal`. -/
def pidToPpid (events : List Event) : List (Int × Int) :=
  events.foldl (fun m ev =>
    let pid := evGet ev "pid" .null
    let ppid := evGet ev "ppid" .null
    if pyIsInt pid && pyIsInt ppid then iMapSet m (pyIntVal pid) (pyIntVal ppid) else m) []

/-- `children[ppid].append(pid)` over `pid_to_ppid.items()`, skipping
self-referential entries. -/
def childrenMap (ppids : List (Int × Int)) : List (Int × List Int) :=
  ppids.foldl (fun m p =>
    if p.2 ≠ p.1 then
      match iMapGet m p.2 with
      | some l => iMapSet m p.2 (l ++ [p.1])
      | none => m ++ [(p.2, [p.1])]
    else m) []

/-- `children.get(pid, [])` as used by `build_subtree` (a `defaultdict`
read via `.get`, so no entry is created). -/
def childrenOf (children : List (Int × List Int)) (pid : Int) : List Int :=
  (iMapGet children pid).getD []

/-- Roots: pids of `pid_to_ppid` whose recorded ppid is not a known pid. -/
def rootsOf (ppids : List (Int × Int)) : List Int :=
  (ppids.filter (fun p => !(ppids.any (fun q => q.1 == p.2)))).map (fun p => p.1)

/-- A node of the nested process tree. -/
inductive PTree where
  | node (pid : Int) (comm : String) (children : List PTree)

/-- `build_subtree`, with explicit fuel standing for the Python call stack:
`none` models a `RecursionError` (the recursion as written has no cycle
guard; claim C10 shows `|pid_to_ppid| + 1` fuel always suffices from a
root). Children are visited sorted ascending. -/
def build_subtree (comms : List (Int × String)) (children : List (Int × List Int)) :
    Nat → Int → Option PTree
  | 0, _ => none
  | fuel + 1, pid => do
    let kids := (childrenOf children pid).insertionSort (fun a b => a ≤ b)
    let sub ← kids.mapM (build_subtree comms children fuel)
    pure (.node pid ((iMapGet comms pid).getD "?") sub)

/-- One entry of the flat process listing. -/
structure FlatRec where
  pid : Int
  comm : String
  ppid : Option Int

structure PTreeOut where
  roots : List PTree
  flat : List FlatRec

/-- `compute_process_tree`.  `all_pids = set(pid_to_ppid.keys())`: the keys
are pairwise distinct by construction, and its sorted traversal is the
sorted key list. -/
def compute_process_tree (events : List Event) : Except String PTreeOut :=
  let comms := pidToComm events
  let ppids := pidToPpid events
  let children := childrenMap ppids
  let roots := rootsOf ppids
  let fuel := ppids.length + 1
  match (roots.insertionSort (fun a b => a ≤ b)).mapM (build_subtree comms children fuel) with
  | none => .error "RecursionError"
  | some trees =>
    .ok { roots := trees,
          flat := ((ppids.map (fun p => p.1)).insertionSort (fun a b => a ≤ b)).map
            (fun pid => { pid := pid, comm := (iMapGet comms pid).getD "?",
                          ppid := iMapGet ppids pid }) }

/-!  Resource map (`compute_resource_map`). -/

/-- Insertion-ordered set of decoded strings (`set.add`); the set is only
read through `sorted(...)`, so insertion order is irrelevant. -/
def setAdd (s : List String) (x : String) : List String :=
  if s.contains x then s else s ++ [x]

/-- Inner per-process dict: resource kind (one of the three literals) to
set of decoded strings. -/
def rmInnerAdd (inner : List (String × List String)) (kind : String) (decoded : String) :
    List (String × List String) :=
  match inner.find? (fun p => p.1 == kind) with
  | some _ => inner.map (fun p => if p.1 == kind then (p.1, setAdd p.2 decoded) else p)
  | none => inner ++ [(kind, setAdd [] decoded)]

/-- One iteration of the accumulation loop of `compute_resource_map`:
non-syscall events are skipped; `ev.get("decoded", "").strip()` raises on a
non-string `decoded`; empty decoded or falsy comm are skipped; the three
recognized event names accumulate into `by_comm[comm][event]`. -/
def resourceStep (by_comm : PyMap (List (String × List String))) (ev : Event) :
    Except String (PyMap (List (String × List String))) := do
  if !(pyEq (evGet ev "type" .null) (.str "syscall")) then pure by_comm
  else do
    let event := evGet ev "event" (.str "")
    let comm := evGet ev "comm" (.str "")
    let decoded ← pyStrip (evGet ev "decoded" (.str ""))
    if decoded = "" || !(pyTruthy comm) then pure by_comm
    else
      match (if pyEq event (.str "openat") then some "openat"
             else if pyEq event (.str "connect") then some "connect"
             else if pyEq event (.str "execve") then some "execve"
             else none) with
      | none => pure by_comm
      | some kind => do
        let inner ← mapGetD by_comm comm []
        mapSet by_comm comm (rmInnerAdd inner kind decoded)

/-- Monadic ordered insert: walk past every `b` with `lt b a` true. -/
def orderedInsertM {α : Type} (lt : α → α → Except String Bool) (a : α) :
    List α → Except String (List α)
  | [] => .ok [a]
  | b :: l => do
    let c ← lt b a
    if c then do
      let r ← orderedInsertM lt a l
      pure (b :: r)
    else pure (a :: b :: l)

/-- Monadic stable insertion sort modelling Python `sorted` with a
comparison that can raise `TypeError`. -/
def insertionSortM {α : Type} (lt : α → α → Except String Bool) :
    List α → Except String (List α)
  | [] => .ok []
  | a :: l => do
    let s ← insertionSortM lt l
    orderedInsertM lt a s

/-- Python `<` on `by_comm.items()` tuples: equal first components would
compare the dict values (`TypeError`); otherwise the comms compare. -/
def rmItemLt (a b : JVal × List (String × List String)) : Except String Bool :=
  if pyEq a.1 b.1 then .error "TypeError: dict comparison" else pyLt a.1 b.1

/-- `compute_resource_map`: accumulate, then serialize with process keys
sorted and each resource set sorted (empty sets dropped). -/
def compute_resource_map (events : List Event) :
    Except String (List (JVal × List (String × List String))) := do
  let by_comm ← events.foldlM resourceStep []
  let items ← insertionSortM rmItemLt by_comm
  pure (items.map (fun p =>
    (p.1, (p.2.filter (fun q => !q.2.isEmpty)).map
      (fun q => (q.1, q.2.insertionSort (fun a b => a ≤ b))))))

/-!  Aggregation engine (`compute_analytics` main loop).

The Python single pass updates independent accumulators; each accumulator is
embedded as its own fold over the same ordered sequence (semantically
identical, the accumulators share no state — cf. spec section 5). -/

/-- The pattern `isinstance(x, str) and x` on a field: the usable name. -/
def strField (ev : Event) (k : String) : Option String :=
  match evGet ev k .null with
  | .str s => if s ≠ "" then some s else none
  | _ => none

def typeCounter (evs : List Event) : SCounter :=
  evs.foldl (fun m ev =>
    match strField ev "type" with
    | some s => scAdd m s
    | none => m) []

def eventCounter (evs : List Event) : SCounter :=
  evs.foldl (fun m ev =>
    match strField ev "event" with
    | some s => scAdd m s
    | none => m) []

def procTotal (evs : List Event) : SCounter :=
  evs.foldl (fun m ev =>
    match strField ev "comm" with
    | some s => scAdd m s
    | none => m) []

/-- `t == "syscall"`. -/
def isSyscall (ev : Event) : Bool := pyEq (evGet ev "type" .null) (.str "syscall")

/-- `ev.get("data", {})` viewed as a dict when it is one. -/
def dataDict (ev : Event) : Option (List (String × JVal)) :=
  match evGet ev "data" (.obj []) with
  | .obj fs => some fs
  | _ => none

def syscallCounts (evs : List Event) : SCounter :=
  evs.foldl (fun m ev =>
    if isSyscall ev then
      match strField ev "event" with
      | some e => scAdd m e
      | none => m
    else m) []

/-- `syscall_errors`: `ret` present, `isinstance(_, int)`, negative, and a
usable event name. -/
def syscallErrors (evs : List Event) : SCounter :=
  evs.foldl (fun m ev =>
    if isSyscall ev then
      match dataDict ev with
      | some fs =>
        let ret := dGetT (.obj fs) "ret" .null
        match strField ev "event" with
        | some e => if pyIsInt ret && pyIntVal ret < 0 then scAdd m e else m
        | none => m
      | none => m
    else m) []

/-- The global latency list (`all_lat_us`): `float(lat)` for each syscall
event whose `data` is a dict with numeric `lat_us`. -/
def allLat (evs : List Event) : List ℚ :=
  evs.foldl (fun l ev =>
    if isSyscall ev then
      match dataDict ev with
      | some fs =>
        let lat := dGetT (.obj fs) "lat_us" .null
        if pyIsNum lat then l ++ [pyNumVal lat] else l
      | none => l
    else l) []

/-- Condition under which the main loop appends to `syscall_lat_events`. -/
def latCond (ev : Event) : Bool :=
  isSyscall ev && (dataDict ev).isSome && pyIsNum (dGetT (evGet ev "data" (.obj [])) "lat_us" .null)

def syscallLatEvents (evs : List Event) : List Event := evs.filter latCond

/-- Key order of `syscall_lat_by_name` (first-occurrence order of usable
event names among latency-carrying syscall events). -/
def latNames (evs : List Event) : List String :=
  evs.foldl (fun ns ev =>
    if latCond ev then
      match strField ev "event" with
      | some e => if ns.contains e then ns else ns ++ [e]
      | none => ns
    else ns) []

/-- `syscall_lat_by_name[name]`. -/
def latForName (evs : List Event) (name : String) : List ℚ :=
  evs.foldl (fun l ev =>
    if latCond ev && (strField ev "event" == some name) then
      l ++ [pyNumVal (dGetT (evGet ev "data" (.obj [])) "lat_us" .null)]
    else l) []

/-- `error_rates[name] = (err / cnt) if cnt else 0.0` over
`syscall_counts.items()`. -/
def syscallErrorRates (evs : List Event) : List (String × ℚ) :=
  (syscallCounts evs).map (fun p =>
    (p.1, if p.2 ≠ 0 then ((scGet (syscallErrors evs) p.1 : ℚ) / (p.2 : ℚ)) else 0))

structure LatOverall where
  min_us : ℚ
  p50_us : ℚ
  p95_us : ℚ
  p99_us : ℚ
  max_us : ℚ
  n : Nat

/-- `latency_summary` (empty dict modelled as `none`). -/
def latencyOverall (evs : List Event) : Option LatOverall :=
  let l := allLat evs
  if l.isEmpty then none
  else
    let s := l.insertionSort (fun a b => a ≤ b)
    some { min_us := s.headD 0,
           p50_us := (percentile s (1/2)).getD 0,
           p95_us := (percentile s (19/20)).getD 0,
           p99_us := (percentile s (99/100)).getD 0,
           max_us := s.getLastD 0,
           n := s.length }

structure LatPer where
  p50_us : ℚ
  p95_us : ℚ
  p99_us : ℚ
  max_us : ℚ
  n : Nat

def latencyBySyscall (evs : List Event) : List (String × LatPer) :=
  (latNames evs).filterMap (fun name =>
    let vals := latForName evs name
    if vals.isEmpty then none
    else
      let s := vals.insertionSort (fun a b => a ≤ b)
      some (name, { p50_us := (percentile s (1/2)).getD 0,
                    p95_us := (percentile s (19/20)).getD 0,
                    p99_us := (percentile s (99/100)).getD 0,
                    max_us := s.getLastD 0,
                    n := s.length }))

/-- A serialized timeline triple `(ts, type, event)` (non-strings become
`""`). -/
def tlEntry (ev : Event) : String × String × String :=
  ((match evGet ev "ts" .null with | .str s => s | _ => ""),
   (match evGet ev "type" .null with | .str s => s | _ => ""),
   (match evGet ev "event" .null with | .str s => s | _ => ""))

def timelineByPid (evs : List Event) : List (Int × List (String × String × String)) :=
  evs.foldl (fun m ev =>
    let pid := evGet ev "pid" .null
    if pyIsInt pid && (strField ev "event").isSome then
      match iMapGet m (pyIntVal pid) with
      | some l => iMapSet m (pyIntVal pid) (l ++ [tlEntry ev])
      | none => m ++ [(pyIntVal pid, [tlEntry ev])]
    else m) []

/-- Per-process profile: counts restricted to the events with that comm. -/
structure Profile where
  total : Nat
  by_type : SCounter
  by_event : SCounter

def profileFor (evs : List Event) (c : String) : Profile :=
  let own := evs.filter (fun ev => strField ev "comm" == some c)
  { total := scGet (procTotal evs) c,
    by_type := typeCounter own,
    by_event := eventCounter own }

/-- `Counter.most_common(n)` for string-keyed counters. -/
def mostCommonS (n : Nat) (c : SCounter) : List (String × Nat) :=
  (c.insertionSort (fun a b => b.2 ≤ a.2)).take n

/-!  Latency deep-dive (`syscalls_latency_deep`). -/

/-- `_lat_us`: `int(ev.get("data", {}).get("lat_us"))` with any exception
recovered as `-1`. -/
def latKey (ev : Event) : Int :=
  (pyIntCoerce (dGetT (evGet ev "data" (.obj [])) "lat_us" .null)).getD (-1)

/-- One record of `top_slowest`.  Every member of `syscall_lat_events` has a
dict `data` (checked by the main loop), so the `.get` chains cannot raise
here. -/
structure SlowRec where
  ts : JVal
  ts_ns : Option Int
  comm : JVal
  pid : JVal
  tid : JVal
  event : JVal
  ret : JVal
  lat_us : JVal

def topSlowest (evs_lat : List Event) : List SlowRec :=
  ((evs_lat.insertionSort (fun a b => latKey b ≤ latKey a)).take 20).map (fun ev =>
    { ts := evGet ev "ts" .null, ts_ns := get_ts_ns ev,
      comm := evGet ev "comm" .null, pid := evGet ev "pid" .null,
      tid := evGet ev "tid" .null, event := evGet ev "event" .null,
      ret := dGetT (evGet ev "data" (.obj [])) "ret" .null,
      lat_us := dGetT (evGet ev "data" (.obj [])) "lat_us" .null })

/-- Append to a string-keyed dict of int lists (`by_comm[comm].append`). -/
def sMapApp (m : List (String × List Int)) (k : String) (v : Int) :
    List (String × List Int) :=
  match m.find? (fun p => p.1 == k) with
  | some _ => m.map (fun p => if p.1 == k then (p.1, p.2 ++ [v]) else p)
  | none => m ++ [(k, [v])]

/-- Per-comm latency samples: `ev.get("comm") or ""` must be a non-empty
string; `int(lat_us)` cannot fail for members of `syscall_lat_events`
(their `lat_us` is numeric), so the `try` never fires. -/
def latByComm (evs_lat : List Event) : List (String × List Int) :=
  evs_lat.foldl (fun m ev =>
    let comm0 := evGet ev "comm" .null
    let commv := if pyTruthy comm0 then comm0 else .str ""
    match commv with
    | .str s =>
      if s ≠ "" then
        match pyIntCoerce (dGetT (evGet ev "data" (.obj [])) "lat_us" .null) with
        | some n => sMapApp m s n
        | none => m
      else m
    | _ => m) []

/-- `_p(vals, p)`: nearest-rank percentile over sorted ints, `None` on an
empty list (no index clamping in the source; the call sites use
`p ∈ {0.5, 0.95, 0.99}`, for which the index is in range). -/
def pInt (vals : List Int) (p : ℚ) : Option Int :=
  match vals with
  | [] => none
  | _ =>
    let s := vals.insertionSort (fun a b => a ≤ b)
    some (s.getD (pyIntOfRat (p * ((s.length : ℚ) - 1))).toNat 0)

structure CommLat where
  comm : String
  n : Nat
  p50_us : Option Int
  p95_us : Option Int
  p99_us : Option Int
  max_us : Option Int

/-- The sort key `(x["p95_us"] is None, x["p95_us"] or -1)`. -/
def p95Key (r : CommLat) : Bool × Int :=
  (r.p95_us.isNone,
   match r.p95_us with
   | some n => if n ≠ 0 then n else -1
   | none => -1)

def p95ByCommTop (evs_lat : List Event) : List CommLat :=
  let recs := (latByComm evs_lat).map (fun p =>
    ({ comm := p.1, n := p.2.length,
       p50_us := pInt p.2 (1/2), p95_us := pInt p.2 (19/20), p99_us := pInt p.2 (99/100),
       max_us := if p.2.isEmpty then none else p.2.max? } : CommLat))
  (recs.insertionSort (fun a b => boolIntLe (p95Key b) (p95Key a))).take 15

/-- Errno-breakdown pass: tallies `abs(ret)` for negative integer returns,
globally and per syscall name (`ev.get("event") or "unknown"` as the dict
key, which raises on an unhashable event value). -/
def errnoFold (evs_lat : List Event) : Except String (ICounter × PyMap ICounter) :=
  evs_lat.foldlM (fun (acc : ICounter × PyMap ICounter) ev => do
    let data := match evGet ev "data" .null with
      | .obj fs => JVal.obj fs
      | _ => .obj []
    let ret := dGetT data "ret" .null
    match errno_from_ret ret with
    | none => pure acc
    | some eno =>
      let e0 := evGet ev "event" .null
      let sc := if pyTruthy e0 then e0 else .str "unknown"
      let cur ← mapGetD acc.2 sc []
      let m2 ← mapSet acc.2 sc (icAdd cur eno)
      pure (icAdd acc.1 eno, m2)) ([], [])

/-- `Counter.most_common(n)` for int-keyed counters. -/
def mostCommonI (n : Nat) (c : ICounter) : List (Int × Nat) :=
  (c.insertionSort (fun a b => b.2 ≤ a.2)).take n

structure DeepOut where
  top_slowest : List SlowRec
  p95_by_comm_top : List CommLat
  errno_global_top : List (Int × Nat)
  errno_by_syscall_top : List (JVal × List (Int × Nat))

/-- The `syscalls_latency_deep` block (empty dict when there are no latency
events, modelled as `none`). -/
def computeDeep (evs : List Event) : Except String (Option DeepOut) :=
  let evs_lat := syscallLatEvents evs
  if evs_lat.isEmpty then pure none
  else do
    let acc ← errnoFold evs_lat
    pure (some
      { top_slowest := topSlowest evs_lat,
        p95_by_comm_top := p95ByCommTop evs_lat,
        errno_global_top := mostCommonI 10 acc.1,
        errno_by_syscall_top := acc.2.map (fun p => (p.1, mostCommonI 5 p.2)) })

/-!  Summary assembly (`compute_analytics`). -/

structure SyscallsOut where
  counts : SCounter
  errors : SCounter
  error_rates : List (String × ℚ)
  latency_overall : Option LatOverall
  latency_by_syscall : List (String × LatPer)

structure TimeOut where
  has_ts_ns : Bool
  rate_1s : RateResult

structure Summary where
  total_events : Nat
  events_by_type : SCounter
  events_by_name : SCounter
  top_processes : List (String × Nat)
  process_profiles : List (String × Profile)
  syscalls : SyscallsOut
  timeline_by_pid : List (Int × List (String × String × String))
  pid_to_comm : List (Int × String)
  time : TimeOut
  syscalls_latency : Option DeepOut
  binder : BinderOut
  process_tree : PTreeOut
  resource_map : List (JVal × List (String × List String))

/-- `compute_analytics`: sorts, runs every aggregation over the sorted
sequence, and folds the sub-results into one Summary.  An uncaught Python
exception in any pass surfaces as `.error`. -/
def compute_analytics (events : List Event) : Except String Summary := do
  let evs := sort_events_by_time events
  let rate ← window_rate evs 1
  let deep ← computeDeep evs
  let binder ← compute_binder_analytics evs
  let ptree ← compute_process_tree evs
  let rmap ← compute_resource_map evs
  pure { total_events := evs.length,
         events_by_type := typeCounter evs,
         events_by_name := eventCounter evs,
         top_processes := mostCommonS 10 (procTotal evs),
         process_profiles := (procTotal evs).map (fun p => (p.1, profileFor evs p.1)),
         syscalls := { counts := syscallCounts evs,
                       errors := syscallErrors evs,
                       error_rates := syscallErrorRates evs,
                       latency_overall := latencyOverall evs,
                       latency_by_syscall := latencyBySyscall evs },
         timeline_by_pid := timelineByPid evs,
         pid_to_comm := pidToComm evs,
         time := { has_ts_ns := evs.any (fun e => (get_ts_ns e).isSome), rate_1s := rate },
         syscalls_latency := deep,
         binder := binder,
         process_tree := ptree,
         resource_map := rmap }

/-- How the rendering collaborator reads a syscall's error rate from the
Summary (`error_rates.get(name, 0.0)` in `build_report_text`). -/
def errorRateView (s : Summary) (name : String) : ℚ :=
  match s.syscalls.error_rates.find? (fun p => p.1 == name) with
  | some p => p.2
  | none => 0

/-!  Event loading (`load_events`), with a model of `json.loads` restricted
to the JSON subset exercised by the claims (objects, arrays, strings
without escape-sensitive content, signed integers, booleans, null). -/

def skipWs (cs : List Char) : List Char :=
  cs.dropWhile (fun c => c == ' ' || c == '\t' || c == '\n' || c == '\r')

/-- String literal body after the opening quote. -/
def parseStrAux (acc : List Char) : List Char → Option (String × List Char)
  | [] => none
  | '\\' :: c :: rest => parseStrAux (acc ++ [c]) rest
  | '"' :: rest => some (String.mk acc, rest)
  | c :: rest => parseStrAux (acc ++ [c]) rest

def parseNumAux (acc : Nat) : List Char → Nat × List Char
  | [] => (acc, [])
  | c :: rest =>
    if c.isDigit then parseNumAux (acc * 10 + (c.toNat - 48)) rest else (acc, c :: rest)

/-- A non-negative integer literal (at least one digit, no fraction). -/
def parseNat : List Char → Option (Nat × List Char)
  | c :: rest => if c.isDigit then some (parseNumAux (c.toNat - 48) rest) else none
  | [] => none

/-- Insert a parsed object field, last duplicate winning (as `json.loads`
does). -/
def objInsert (fs : List (String × JVal)) (k : String) (v : JVal) : List (String × JVal) :=
  if fs.any (fun p => p.1 == k)
  then fs.map (fun p => if p.1 == k then (p.1, v) else p)
  else fs ++ [(k, v)]

mutual

def parseJ : Nat → List Char → Option (JVal × List Char)
  | 0, _ => none
  | fuel + 1, cs =>
    match skipWs cs with
    | '{' :: rest =>
      (match skipWs rest with
       | '}' :: rest2 => some (.obj [], rest2)
       | rest2 => parseObjRest fuel rest2 [])
    | '[' :: rest =>
      (match skipWs rest with
       | ']' :: rest2 => some (.arr [], rest2)
       | rest2 => parseArrRest fuel rest2 [])
    | '"' :: rest => (parseStrAux [] rest).map (fun p => (.str p.1, p.2))
    | 't' :: 'r' :: 'u' :: 'e' :: rest => some (.bool true, rest)
    | 'f' :: 'a' :: 'l' :: 's' :: 'e' :: rest => some (.bool false, rest)
    | 'n' :: 'u' :: 'l' :: 'l' :: rest => some (.null, rest)
    | '-' :: rest => (parseNat rest).map (fun p => (.int (-(p.1 : Int)), p.2))
    | cs2 => (parseNat cs2).map (fun p => (.int (p.1 : Int), p.2))

/-- Fields of an object after `{` (first key expected). -/
def parseObjRest : Nat → List Char → List (String × JVal) → Option (JVal × List Char)
  | 0, _, _ => none
  | fuel + 1, cs, acc =>
    match skipWs cs with
    | '"' :: rest => do
      let (k, rest2) ← parseStrAux [] rest
      match skipWs rest2 with
      | ':' :: rest3 => do
        let (v, rest4) ← parseJ fuel rest3
        match skipWs rest4 with
        | ',' :: rest5 => parseObjRest fuel rest5 (objInsert acc k v)
        | '}' :: rest5 => some (.obj (objInsert acc k v), rest5)
        | _ => none
      | _ => none
    | _ => none

def parseArrRest : Nat → List Char → List JVal → Option (JVal × List Char)
  | 0, _, _ => none
  | fuel + 1, cs, acc => do
    let (v, rest) ← parseJ fuel cs
    match skipWs rest with
    | ',' :: rest2 => parseArrRest fuel rest2 (acc ++ [v])
    | ']' :: rest2 => some (.arr (acc ++ [v]), rest2)
    | _ => none

end

/-- `json.loads` on one line (must consume the whole line). -/
def jsonLoads (s : String) : Option JVal :=
  let cs := s.toList
  match parseJ (cs.length + 1) cs with
  | some (v, rest) => if (skipWs rest).isEmpty then some v else none
  | none => none

/-- `load_events`: strip each line, skip blanks, parse, keep only objects;
parse failures are silently dropped. -/
def load_events (lines : List String) : List Event :=
  lines.foldl (fun acc line =>
    let l := strStrip line
    if l = "" then acc
    else
      match jsonLoads l with
      | some (.obj fs) => acc ++ [fs]
      | _ => acc) []

/-!  Infrastructure lemmas about the embedded Python primitives. -/

theorem JVal.eq_of_beq_all : ∀ a b : JVal, JVal.beq a b = true → a = b :=
  fun a =>
    @JVal.rec (fun a => ∀ b, JVal.beq a b = true → a = b)
      (fun l => ∀ m, JVal.beqL l m = true → l = m)
      (fun o => ∀ p, JVal.beqO o p = true → o = p)
      (fun x => ∀ y : JVal, JVal.beq x.2 y = true → x.2 = y)
      (fun b h => by cases b <;> simp_all [JVal.beq])
      (fun x b h => by cases b <;> simp_all [JVal.beq])
      (fun n b h => by cases b <;> simp_all [JVal.beq])
      (fun q b h => by cases b <;> simp_all [JVal.beq])
      (fun s b h => by cases b <;> simp_all [JVal.beq])
      (fun l ih b h => by
        cases b <;> simp_all [JVal.beq]
        exact ih _ h)
      (fun o ih b h => by
        cases b <;> simp_all [JVal.beq]
        exact ih _ h)
      (fun m h => by cases m <;> simp_all [JVal.beqL])
      (fun x xs ihx ihxs m h => by
        cases m with
        | nil => simp_all [JVal.beqL]
        | cons y ys =>
          simp only [JVal.beqL, Bool.and_eq_true] at h
          have h1 := ihx _ h.1
          have h2 := ihxs _ h.2
          rw [h1, h2])
      (fun p h => by cases p <;> simp_all [JVal.beqO])
      (fun x xs ihx ihxs p h => by
        cases p with
        | nil => simp_all [JVal.beqO]
        | cons y ys =>
          rcases x with ⟨k, v⟩
          rcases y with ⟨k2, v2⟩
          simp only [JVal.beqO, Bool.and_eq_true] at h
          have h1 : k = k2 := by
            have := h.1.1
            simpa using this
          have h2 := ihx _ h.1.2
          have h3 := ihxs _ h.2
          simp only at h2
          rw [h1, h2, h3])
      (fun _ _ ihv y h => ihv y h)
      a

theorem JVal.beq_refl_all : ∀ a : JVal, JVal.beq a a = true :=
  @JVal.rec (fun a => JVal.beq a a = true)
    (fun l => JVal.beqL l l = true)
    (fun o => JVal.beqO o o = true)
    (fun x => JVal.beq x.2 x.2 = true)
    rfl
    (fun x => by simp [JVal.beq])
    (fun n => by simp [JVal.beq])
    (fun q => by simp [JVal.beq])
    (fun s => by simp [JVal.beq])
    (fun l ih => by simpa [JVal.beq] using ih)
    (fun o ih => by simpa [JVal.beq] using ih)
    rfl
    (fun x xs ihx ihxs => by simp [JVal.beqL, ihx, ihxs])
    rfl
    (fun x xs ihx ihxs => by
      rcases x with ⟨k, v⟩
      simp only [JVal.beqO, Bool.and_eq_true]
      exact ⟨⟨by simp, ihx⟩, ihxs⟩)
    (fun _ _ ihv => ihv)

instance : LawfulBEq JVal where
  eq_of_beq h := JVal.eq_of_beq_all _ _ h
  rfl := JVal.beq_refl_all _

instance : DecidableEq JVal := fun a b =>
  decidable_of_iff ((a == b) = true) beq_iff_eq

/-- Characterization of Python `==`: numeric equality when both sides are
numbers, structural equality otherwise. -/
theorem pyEq_iff (a b : JVal) : pyEq a b = true ↔
    ((∃ x, a.numVal = some x ∧ b.numVal = some x) ∨
     (a.numVal = none ∧ b.numVal = none ∧ a = b)) := by
  unfold pyEq
  cases ha : a.numVal with
  | none =>
    cases hb : b.numVal with
    | none => simp [beq_iff_eq, ha, hb]
    | some y =>
      simp only [beq_iff_eq, ha, hb]
      constructor
      · intro h; subst h; rw [ha] at hb; cases hb
      · rintro (⟨x, hx, _⟩ | ⟨_, hn, _⟩)
        · cases hx
        · cases hn
  | some x =>
    cases hb : b.numVal with
    | none =>
      simp only [beq_iff_eq, ha, hb]
      constructor
      · intro h; subst h; rw [ha] at hb; cases hb
      · rintro (⟨y, _, hy⟩ | ⟨hn, _, _⟩)
        · cases hy
        · cases hn
    | some y =>
      simp only [beq_iff_eq, ha, hb]
      constructor
      · intro h
        exact Or.inl ⟨x, rfl, by rw [h]⟩
      · rintro (⟨z, hz1, hz2⟩ | ⟨hn, _, _⟩)
        · cases hz1; cases hz2; rfl
        · cases hn

theorem pyEq_refl (a : JVal) : pyEq a a = true := by
  rw [pyEq_iff]
  cases h : a.numVal with
  | none => exact Or.inr ⟨rfl, rfl, rfl⟩
  | some x => exact Or.inl ⟨x, rfl, rfl⟩

theorem pyEq_symm {a b : JVal} (h : pyEq a b = true) : pyEq b a = true := by
  rw [pyEq_iff] at h ⊢
  rcases h with ⟨x, h1, h2⟩ | ⟨h1, h2, h3⟩
  · exact Or.inl ⟨x, h2, h1⟩
  · exact Or.inr ⟨h2, h1, h3.symm⟩

theorem pyEq_trans {a b c : JVal} (h1 : pyEq a b = true) (h2 : pyEq b c = true) :
    pyEq a c = true := by
  rw [pyEq_iff] at h1 h2 ⊢
  rcases h1 with ⟨x, hx1, hx2⟩ | ⟨hn1, hn2, he⟩
  · rcases h2 with ⟨y, hy1, hy2⟩ | ⟨hm1, _, _⟩
    · rw [hx2] at hy1; cases hy1; exact Or.inl ⟨x, hx1, hy2⟩
    · rw [hx2] at hm1; cases hm1
  · subst he
    exact h2

/-- Inversion for `Except` bind. -/
theorem except_bind_ok {α β : Type} {a : Except String α} {f : α → Except String β} {c : β}
    (h : (a >>= f) = .ok c) : ∃ b, a = .ok b ∧ f b = .ok c := by
  cases a with
  | ok b => exact ⟨b, rfl, h⟩
  | error e => simp [Bind.bind, Except.bind] at h

/-- A fold whose every step succeeds succeeds. -/
theorem foldlM_total {α β : Type} (f : β → α → Except String β) (l : List α)
    (h : ∀ b a, a ∈ l → ∃ b2, f b a = .ok b2) :
    ∀ init, ∃ r, l.foldlM f init = .ok r := by
  induction l with
  | nil => exact fun init => ⟨init, rfl⟩
  | cons x xs ih =>
    intro init
    obtain ⟨b2, hb2⟩ := h init x (by simp)
    obtain ⟨r, hr⟩ := ih (fun b a ha => h b a (by simp [ha])) b2
    refine ⟨r, ?_⟩
    simp only [List.foldlM_cons, hb2]
    exact hr

/-- Skipped elements (on which the step is the pure identity) can be
filtered out of a monadic fold. -/
theorem foldlM_filter_of_skip {α β : Type} (f : β → α → Except String β) (keep : α → Bool)
    (l : List α) (h : ∀ a, a ∈ l → keep a = false → ∀ b, f b a = .ok b) :
    ∀ init, l.foldlM f init = (l.filter keep).foldlM f init := by
  induction l with
  | nil => intro init; rfl
  | cons x xs ih =>
    intro init
    by_cases hx : keep x = true
    · simp only [List.filter_cons, hx, if_pos]
      simp only [List.foldlM_cons]
      cases hfx : f init x with
      | ok b => simp [ih (fun a ha => h a (by simp [ha]))]
      | error e => rfl
    · have hx' : keep x = false := by simpa using hx
      simp only [List.filter_cons, hx']
      simp only [List.foldlM_cons, h x (by simp) hx' init]
      simpa using ih (fun a ha => h a (by simp [ha])) init

/-- Python `int()` truncation agrees with the floor on non-negative
rationals. -/
theorem pyIntOfRat_eq_floor {q : ℚ} (h : 0 ≤ q) : pyIntOfRat q = ⌊q⌋ := by
  unfold pyIntOfRat
  rw [Int.tdiv_eq_ediv (Rat.num_nonneg.mpr h) (by positivity), ← Rat.floor_def]

theorem pyIntOfRat_mono {p q : ℚ} (hp : 0 ≤ p) (h : p ≤ q) :
    pyIntOfRat p ≤ pyIntOfRat q := by
  rw [pyIntOfRat_eq_floor hp, pyIntOfRat_eq_floor (le_trans hp h)]
  exact Int.floor_le_floor h

/-!  Claim C4: end-to-end scenario. -/

/-- The three input lines of the spec's first end-to-end scenario (two
well-formed syscall events and one unparsable line). -/
def demoLines : List String :=
  ["\x7b\"type\":\"syscall\",\"event\":\"openat\",\"comm\":\"app\",\"pid\":1,\"data\":\x7b\"ret\":3,\"lat_us\":120\x7d\x7d",
   "\x7b\"type\":\"syscall\",\"event\":\"openat\",\"comm\":\"app\",\"pid\":1,\"data\":\x7b\"ret\":-13,\"lat_us\":80\x7d\x7d",
   "not json"]

/-- C4: on the three demo lines, the Summary reports `total_events = 2`,
`syscalls.counts.openat = 2`, `syscalls.errors.openat = 1`,
`syscalls.error_rates.openat = 0.5`, and `latency_overall` with `n = 2`,
`min_us = 80`, `max_us = 120`. -/
theorem c4_end_to_end_scenario :
    (compute_analytics (load_events demoLines)).toOption.map (fun s =>
      (s.total_events, s.syscalls.counts, s.syscalls.errors, s.syscalls.error_rates,
       s.syscalls.latency_overall.map (fun l => (l.n, l.min_us, l.max_us))))
    = some (2, [("openat", 2)], [("openat", 1)], [("openat", (1 : ℚ)/2)],
            some (2, (80 : ℚ), (120 : ℚ))) := by
  rfl

/-!  Claim C7: percentile endpoints and monotonicity. -/

theorem pyIntOfRat_intCast (m : Int) : pyIntOfRat (m : ℚ) = m := by
  unfold pyIntOfRat
  simp [Rat.num_intCast, Rat.den_intCast]

theorem percentile_eq_some {arr : List ℚ} (h : arr ≠ []) (p : ℚ) :
    percentile arr p =
      some (arr.getD
        (max 0 (min (pyIntOfRat (p * ((arr.length : ℚ) - 1))) ((arr.length : Int) - 1))).toNat 0) := by
  obtain ⟨a, rest, rfl⟩ := List.exists_cons_of_ne_nil h
  rfl

/-- C7: for a non-empty ascending-sorted array, `percentile(arr, 0.0)` is
the first element, `percentile(arr, 1.0)` the last, and `percentile(arr, p)`
is monotone non-decreasing in `p` on `[0, 1]`. -/
theorem c7_percentile_bounds_and_mono (arr : List ℚ) (h : arr ≠ [])
    (hs : List.Sorted (fun a b => a ≤ b) arr) :
    percentile arr 0 = some (arr.headD 0) ∧
    percentile arr 1 = some (arr.getLastD 0) ∧
    ∀ p q x y, 0 ≤ p → p ≤ q → q ≤ 1 →
      percentile arr p = some x → percentile arr q = some y → x ≤ y := by
  have hlen : 1 ≤ arr.length := List.length_pos.mpr h
  refine ⟨?_, ?_, ?_⟩
  · rw [percentile_eq_some h]
    have hk : pyIntOfRat (0 * ((arr.length : ℚ) - 1)) = 0 := by
      rw [zero_mul]
      simpa using pyIntOfRat_intCast 0
    rw [hk]
    have : (max 0 (min 0 ((arr.length : Int) - 1))).toNat = 0 := by omega
    rw [this]
    obtain ⟨a, rest, rfl⟩ := List.exists_cons_of_ne_nil h
    rfl
  · rw [percentile_eq_some h]
    have hcast : (1 : ℚ) * ((arr.length : ℚ) - 1) = (((arr.length : Int) - 1 : Int) : ℚ) := by
      push_cast; ring
    rw [hcast, pyIntOfRat_intCast]
    have hidx : (max 0 (min ((arr.length : Int) - 1) ((arr.length : Int) - 1))).toNat
        = arr.length - 1 := by omega
    rw [hidx]
    rw [List.getD_eq_getElem?_getD, ← List.getLast?_eq_getElem?]
    cases arr with
    | nil => cases h rfl
    | cons a rest =>
      rw [List.getLast?_eq_getLast (a :: rest) (by simp), List.getLastD_eq_getLast?,
        List.getLast?_eq_getLast (a :: rest) (by simp)]
  · intro p q x y hp hpq hq1 hx hy
    rw [percentile_eq_some h] at hx hy
    set n : Int := (arr.length : Int) with hn
    have hkmono : pyIntOfRat (p * ((arr.length : ℚ) - 1)) ≤
        pyIntOfRat (q * ((arr.length : ℚ) - 1)) := by
      have hnn : (0 : ℚ) ≤ (arr.length : ℚ) - 1 := by
        have : (1 : ℚ) ≤ (arr.length : ℚ) := by exact_mod_cast hlen
        linarith
      exact pyIntOfRat_mono (mul_nonneg hp hnn) (mul_le_mul_of_nonneg_right hpq hnn)
    set ip := (max 0 (min (pyIntOfRat (p * ((arr.length : ℚ) - 1))) (n - 1))).toNat with hip
    set iq := (max 0 (min (pyIntOfRat (q * ((arr.length : ℚ) - 1))) (n - 1))).toNat with hiq
    have hiple : ip ≤ iq := by omega
    have hiplt : ip < arr.length := by omega
    have hiqlt : iq < arr.length := by omega
    have hx' : x = arr.get ⟨ip, hiplt⟩ := by
      have := hx
      rw [List.getD_eq_getElem?_getD, List.getElem?_eq_getElem hiplt] at this
      simpa using this.symm
    have hy' : y = arr.get ⟨iq, hiqlt⟩ := by
      have := hy
      rw [List.getD_eq_getElem?_getD, List.getElem?_eq_getElem hiqlt] at this
      simpa using this.symm
    rw [hx', hy']
    exact hs.rel_get_of_le (by exact_mod_cast hiple)

theorem c7_percentile_witness :
    (([(1 : ℚ), 2, 3] : List ℚ) ≠ [] ∧ List.Sorted (fun a b => a ≤ b) [(1 : ℚ), 2, 3]) ∧
    (percentile [(1 : ℚ), 2, 3] 0 = some 1 ∧ percentile [(1 : ℚ), 2, 3] 1 = some 3) := by
  have h1 : ([(1 : ℚ), 2, 3] : List ℚ) ≠ [] := by simp
  have h2 : List.Sorted (fun a b => a ≤ b) [(1 : ℚ), 2, 3] := by
    simp [List.sorted_cons]
    norm_num
  obtain ⟨ha, hb, _⟩ := c7_percentile_bounds_and_mono [(1 : ℚ), 2, 3] h1 h2
  exact ⟨⟨h1, h2⟩, ⟨by simpa using ha, by simpa using hb⟩⟩

/-!  Claim C6: process-tree roots and self-reference exclusion. -/

theorem iMapGet_map_overwrite {α : Type} (m : List (Int × α)) (k k2 : Int) (v : α) :
    iMapGet (m.map (fun p => if p.1 == k then (p.1, v) else p)) k2 =
      (m.find? (fun p => p.1 == k2)).map (fun p => if p.1 == k then v else p.2) := by
  unfold iMapGet
  rw [List.find?_map]
  have hcomp : ((fun p : Int × α => p.1 == k2) ∘ fun p => if p.1 == k then (p.1, v) else p)
      = fun p => p.1 == k2 := by
    funext p
    by_cases hp : p.1 = k <;> simp [hp]
  rw [hcomp]
  cases hm : m.find? (fun p => p.1 == k2) with
  | none => rfl
  | some p =>
    by_cases hp : p.1 = k <;> simp [hp]

theorem find?_key_eq_none_of_any_eq_false {α : Type} {m : List (Int × α)} {k : Int}
    (h : m.any (fun p => p.1 == k) = false) : m.find? (fun p => p.1 == k) = none := by
  rw [List.find?_eq_none]
  intro p hp
  rw [List.any_eq_false] at h
  exact h p hp

theorem iMapGet_set_self {α : Type} (m : List (Int × α)) (k : Int) (v : α) :
    iMapGet (iMapSet m k v) k = some v := by
  unfold iMapSet
  by_cases hany : m.any (fun p => p.1 == k)
  · simp only [hany, if_pos]
    rw [iMapGet_map_overwrite]
    have hsome : (m.find? (fun p => p.1 == k)).isSome := by
      rw [List.find?_isSome]
      exact List.any_eq_true.mp hany
    obtain ⟨q, hq⟩ := Option.isSome_iff_exists.mp hsome
    have hqk : q.1 = k := by simpa using List.find?_some hq
    rw [hq]
    simp [hqk]
  · have hany2 : m.any (fun p => p.1 == k) = false := by
      revert hany; cases m.any (fun p => p.1 == k) <;> simp
    rw [if_neg hany]
    unfold iMapGet
    rw [List.find?_append, find?_key_eq_none_of_any_eq_false hany2]
    simp

theorem iMapGet_set_ne {α : Type} (m : List (Int × α)) (k k2 : Int) (v : α) (h : k2 ≠ k) :
    iMapGet (iMapSet m k v) k2 = iMapGet m k2 := by
  unfold iMapSet
  by_cases hany : m.any (fun p => p.1 == k)
  · simp only [hany, if_pos]
    rw [iMapGet_map_overwrite]
    unfold iMapGet
    cases hm : m.find? (fun p => p.1 == k2) with
    | none => rfl
    | some q =>
      have hq2 : q.1 = k2 := by simpa using List.find?_some hm
      simp [hq2, h]
  · simp only [hany, if_neg, Bool.not_eq_true]
    unfold iMapGet
    rw [List.find?_append]
    cases hm : m.find? (fun p => p.1 == k2) with
    | some q => rfl
    | none =>
      have : ¬((k, v).1 == k2) = true := by simp; omega
      simp [List.find?_cons, this]

theorem iMapGet_append_single {α : Type} (m : List (Int × α)) (a : Int) (b : α) (k : Int) :
    iMapGet (m ++ [(a, b)]) k =
      (match iMapGet m k with
       | some v => some v
       | none => if a = k then some b else none) := by
  unfold iMapGet
  rw [List.find?_append]
  cases hm : m.find? (fun p => p.1 == k) with
  | some q => rfl
  | none =>
    by_cases hak : a = k
    · simp [List.find?_cons, hak]
    · simp [List.find?_cons, hak]

/-- No pid ever appears in its own children list: self-referential edges
are filtered out, and every other edge targets a different pid. -/
theorem childrenMap_no_self (ppids : List (Int × Int)) :
    ∀ k lst, iMapGet (childrenMap ppids) k = some lst → k ∉ lst := by
  unfold childrenMap
  suffices H : ∀ (l : List (Int × Int)) (m : List (Int × List Int)),
      (∀ k lst, iMapGet m k = some lst → k ∉ lst) →
      ∀ k lst, iMapGet (l.foldl (fun m p =>
        if p.2 ≠ p.1 then
          match iMapGet m p.2 with
          | some l2 => iMapSet m p.2 (l2 ++ [p.1])
          | none => m ++ [(p.2, [p.1])]
        else m) m) k = some lst → k ∉ lst by
    exact H ppids [] (fun k lst h => by simp [iMapGet] at h)
  intro l
  induction l with
  | nil => intro m hm; exact hm
  | cons p rest ih =>
    intro m hm
    rw [List.foldl_cons]
    apply ih
    by_cases hself : p.2 ≠ p.1
    · rw [if_pos hself]
      cases hcur : iMapGet m p.2 with
      | some l2 =>
        intro k lst hk
        by_cases hkp : k = p.2
        · subst hkp
          rw [iMapGet_set_self] at hk
          cases hk
          intro hmem
          rcases List.mem_append.mp hmem with h1 | h2
          · exact hm _ _ hcur h1
          · simp at h2
            exact hself (h2 ▸ rfl)
        · rw [iMapGet_set_ne _ _ _ _ hkp] at hk
          exact hm _ _ hk
      | none =>
        intro k lst hk
        rw [iMapGet_append_single] at hk
        cases hcur2 : iMapGet m k with
        | some v =>
          rw [hcur2] at hk
          cases hk
          exact hm _ _ hcur2
        | none =>
          rw [hcur2] at hk
          by_cases hpk : p.2 = k
          · simp only [hpk, if_pos] at hk
            cases hk
            intro hmem
            simp at hmem
            exact hself (by omega)
          · simp [hpk] at hk
    · rw [if_neg hself]
      exact hm

/-- C6: a pid whose recorded ppid is never observed as a pid is classified
as a root, and no pid ever appears in its own children list. -/
theorem c6_root_detection_and_self_child (events : List Event) :
    (∀ p pp, iMapGet (pidToPpid events) p = some pp →
      (pidToPpid events).all (fun q => q.1 != pp) = true →
      p ∈ rootsOf (pidToPpid events)) ∧
    (∀ p, p ∉ childrenOf (childrenMap (pidToPpid events)) p) := by
  constructor
  · intro p pp hget hall
    unfold rootsOf
    unfold iMapGet at hget
    cases hf : (pidToPpid events).find? (fun q => q.1 == p) with
    | none => rw [hf] at hget; cases hget
    | some r =>
      rw [hf] at hget
      have hr2 : r.2 = pp := by simpa using hget
      have hr1 : r.1 = p := by simpa using List.find?_some hf
      have hrmem := List.mem_of_find?_eq_some hf
      apply List.mem_map.mpr
      refine ⟨r, List.mem_filter.mpr ⟨hrmem, ?_⟩, hr1⟩
      rw [List.all_eq_true] at hall
      have hany : (pidToPpid events).any (fun q => q.1 == r.2) = false := by
        rw [List.any_eq_false]
        intro q hq
        have := hall q hq
        simp only [bne_iff_ne, ne_eq] at this
        simp [hr2, this]
      simp [hany]
  · intro p
    unfold childrenOf
    cases h : iMapGet (childrenMap (pidToPpid events)) p with
    | none => simp [h]
    | some lst => simpa [h] using childrenMap_no_self _ p lst h

theorem c6_witness :
    (iMapGet (pidToPpid [[("pid", JVal.int 1), ("ppid", JVal.int 99)]]) 1 = some 99 ∧
     (pidToPpid [[("pid", JVal.int 1), ("ppid", JVal.int 99)]]).all (fun q => q.1 != 99) = true) ∧
    1 ∈ rootsOf (pidToPpid [[("pid", JVal.int 1), ("ppid", JVal.int 99)]]) :=
  ⟨⟨by rfl, by rfl⟩,
   (c6_root_detection_and_self_child [[("pid", JVal.int 1), ("ppid", JVal.int 99)]]).1
     1 99 (by rfl) (by rfl)⟩

/-!  Claim C8: error rates. -/

/-- Projection of a successful `compute_analytics` run onto the syscall
counters (inverting the monadic assembly). -/
theorem compute_analytics_ok_syscalls {events : List Event} {s : Summary}
    (h : compute_analytics events = .ok s) :
    s.syscalls.counts = syscallCounts (sort_events_by_time events) ∧
    s.syscalls.errors = syscallErrors (sort_events_by_time events) ∧
    s.syscalls.error_rates = syscallErrorRates (sort_events_by_time events) := by
  unfold compute_analytics at h
  obtain ⟨rate, h1, h⟩ := except_bind_ok h
  obtain ⟨deep, h2, h⟩ := except_bind_ok h
  obtain ⟨binder, h3, h⟩ := except_bind_ok h
  obtain ⟨ptree, h4, h⟩ := except_bind_ok h
  obtain ⟨rmap, h5, h⟩ := except_bind_ok h
  simp only [pure, Except.pure, Except.ok.injEq] at h
  subst h
  exact ⟨rfl, rfl, rfl⟩

theorem scAdd_preserves_pos {m : SCounter} (hm : ∀ p ∈ m, 0 < p.2) (k : String) :
    ∀ p ∈ scAdd m k, 0 < p.2 := by
  intro p hp
  unfold scAdd at hp
  by_cases hany : m.any (fun q => q.1 == k)
  · rw [if_pos hany] at hp
    obtain ⟨q, hq, hqe⟩ := List.mem_map.mp hp
    by_cases hqk : q.1 == k
    · simp only [hqk, if_pos] at hqe
      cases hqe
      simp
    · simp only [hqk] at hqe
      simp only [Bool.false_eq_true, if_neg] at hqe
      exact hqe ▸ hm q hq
  · rw [if_neg hany] at hp
    rcases List.mem_append.mp hp with h1 | h2
    · exact hm p h1
    · simp only [List.mem_singleton] at h2
      simp [h2]

theorem syscallCounts_pos (evs : List Event) : ∀ p ∈ syscallCounts evs, 0 < p.2 := by
  unfold syscallCounts
  suffices H : ∀ (l : List Event) (m : SCounter), (∀ p ∈ m, 0 < p.2) →
      ∀ p ∈ l.foldl (fun m ev =>
        if isSyscall ev then
          match strField ev "event" with
          | some e => scAdd m e
          | none => m
        else m) m, 0 < p.2 by
    exact H evs [] (by simp)
  intro l
  induction l with
  | nil => intro m hm; exact hm
  | cons ev rest ih =>
    intro m hm
    rw [List.foldl_cons]
    apply ih
    by_cases hsc : isSyscall ev
    · simp only [hsc, if_pos]
      cases hsf : strField ev "event" with
      | some e => exact scAdd_preserves_pos hm e
      | none => exact hm
    · simp only [hsc, Bool.false_eq_true, if_neg]
      exact hm

/-- C8: the error rate read from the Summary (as the renderer reads it,
`error_rates.get(name, 0.0)`) equals `errors / counts`, and is 0 for a name
with zero observed calls; the computation is total, so no division error can
occur. -/
theorem c8_error_rate_zero_safe (events : List Event) (s : Summary) (name : String)
    (h : compute_analytics events = .ok s) :
    errorRateView s name =
      (if scGet s.syscalls.counts name = 0 then 0
       else (scGet s.syscalls.errors name : ℚ) / (scGet s.syscalls.counts name : ℚ)) := by
  obtain ⟨hc, he, hr⟩ := compute_analytics_ok_syscalls h
  unfold errorRateView
  rw [hr, hc, he]
  unfold syscallErrorRates
  rw [List.find?_map]
  have hcomp : ((fun p : String × ℚ => p.1 == name) ∘ fun p : String × Nat =>
      (p.1, if p.2 ≠ 0
            then ((scGet (syscallErrors (sort_events_by_time events)) p.1 : ℚ) / (p.2 : ℚ))
            else 0))
      = fun p : String × Nat => p.1 == name := rfl
  rw [hcomp]
  cases hf : (syscallCounts (sort_events_by_time events)).find? (fun p => p.1 == name) with
  | none =>
    have hz : scGet (syscallCounts (sort_events_by_time events)) name = 0 := by
      unfold scGet; rw [hf]
    rw [hz]
    rfl
  | some q =>
    have hq1 : q.1 = name := by simpa using List.find?_some hf
    have hpos : 0 < q.2 := syscallCounts_pos _ q (List.mem_of_find?_eq_some hf)
    have hcnt : scGet (syscallCounts (sort_events_by_time events)) name = q.2 := by
      unfold scGet; rw [hf]
    rw [hcnt, if_neg (by omega)]
    have hne : q.2 ≠ 0 := by omega
    show (if q.2 ≠ 0
          then ((scGet (syscallErrors (sort_events_by_time events)) q.1 : ℚ) / (q.2 : ℚ))
          else 0)
      = (scGet (syscallErrors (sort_events_by_time events)) name : ℚ) / (q.2 : ℚ)
    rw [if_pos hne, hq1]

/-- The Summary produced on an empty event list (for the C8 witness). -/
def emptySummaryC8 : Summary :=
  { total_events := 0, events_by_type := [], events_by_name := [],
    top_processes := [], process_profiles := [],
    syscalls := { counts := [], errors := [], error_rates := [],
                  latency_overall := none, latency_by_syscall := [] },
    timeline_by_pid := [], pid_to_comm := [],
    time := { has_ts_ns := false,
              rate_1s := .unavailable "ts_ns missing or too few events" },
    syscalls_latency := none,
    binder := { total_transactions := 0, oneway := 0, sync := 0,
                total_bytes_transferred := 0, top_codes := [], ipc_graph := [] },
    process_tree := { roots := [], flat := [] },
    resource_map := [] }

theorem c8_witness :
    compute_analytics ([] : List Event) = .ok emptySummaryC8 ∧
    errorRateView emptySummaryC8 "openat" =
      (if scGet emptySummaryC8.syscalls.counts "openat" = 0 then 0
       else (scGet emptySummaryC8.syscalls.errors "openat" : ℚ)
          / (scGet emptySummaryC8.syscalls.counts "openat" : ℚ)) :=
  ⟨rfl, c8_error_rate_zero_safe [] emptySummaryC8 "openat" rfl⟩

/-!  Claim C3: temporal ordering. -/

theorem boolIntLe_refl (a : Bool × Int) : boolIntLe a a := Or.inr ⟨rfl, le_refl _⟩

theorem orderedInsert_filter_key_eq (a : Event) (l : List Event) (c : Bool × Int)
    (ha : evKey a = c) :
    (l.orderedInsert tsRel a).filter (fun e => evKey e == c)
      = a :: l.filter (fun e => evKey e == c) := by
  induction l with
  | nil => simp [List.orderedInsert, List.filter, ha]
  | cons b l ih =>
    rw [List.orderedInsert]
    by_cases hr : tsRel a b
    · rw [if_pos hr]
      simp [List.filter_cons, ha]
    · rw [if_neg hr]
      have hbc : evKey b ≠ c := by
        intro hbc
        exact hr (Or.inr ⟨by rw [ha, hbc], by rw [ha, hbc]⟩)
      rw [List.filter_cons, List.filter_cons]
      have hbcb : (evKey b == c) = false := by simpa using hbc
      simp only [hbcb]
      exact ih

theorem orderedInsert_filter_key_ne (a : Event) (l : List Event) (c : Bool × Int)
    (ha : evKey a ≠ c) :
    (l.orderedInsert tsRel a).filter (fun e => evKey e == c)
      = l.filter (fun e => evKey e == c) := by
  induction l with
  | nil =>
    have hab : (evKey a == c) = false := by simpa using ha
    simp [List.orderedInsert, List.filter, hab]
  | cons b l ih =>
    rw [List.orderedInsert]
    by_cases hr : tsRel a b
    · rw [if_pos hr]
      simp [List.filter_cons, ha]
    · rw [if_neg hr]
      rw [List.filter_cons, List.filter_cons]
      cases hbc : (evKey b == c) <;> simp [hbc, ih]

/-- Stability of the embedded `sorted`: the subsequence at each exact sort
key is untouched. -/
theorem insertionSort_filter_key (l : List Event) (c : Bool × Int) :
    (l.insertionSort tsRel).filter (fun e => evKey e == c)
      = l.filter (fun e => evKey e == c) := by
  induction l with
  | nil => rfl
  | cons a l ih =>
    rw [List.insertionSort]
    by_cases ha : evKey a = c
    · rw [orderedInsert_filter_key_eq a _ c ha, ih, List.filter_cons]
      simp [ha]
    · rw [orderedInsert_filter_key_ne a _ c ha, ih, List.filter_cons]
      simp [ha]

/-- C3: with at least one parseable `ts_ns`, the result is a permutation of
the input, sorted by the key `(ts_ns is None, ts_ns or 0)` — i.e. ascending
`ts_ns` with all non-timestamped events after all timestamped ones — and the
subsequence at each exact key keeps its original order (stability, ties
broken by original position); with no parseable `ts_ns`, the input is
returned unchanged. -/
theorem c3_sort_events_by_time_spec (events : List Event) :
    ((∀ e ∈ events, get_ts_ns e = none) → sort_events_by_time events = events) ∧
    ((∃ e ∈ events, (get_ts_ns e).isSome) →
      (sort_events_by_time events).Perm events ∧
      List.Sorted tsRel (sort_events_by_time events) ∧
      ∀ c : Bool × Int, (sort_events_by_time events).filter (fun e => evKey e == c)
        = events.filter (fun e => evKey e == c)) := by
  constructor
  · intro h
    unfold sort_events_by_time
    by_cases he : events.isEmpty
    · rw [if_pos he]
    · rw [if_neg he, if_neg]
      rw [List.any_eq_true]
      push_neg
      intro e hemem
      simp [h e hemem]
  · rintro ⟨e, he, hsome⟩
    have hne : ¬events.isEmpty = true := by
      cases events with
      | nil => cases he
      | cons a l => simp
    have hany : events.any (fun e => (get_ts_ns e).isSome) = true := by
      rw [List.any_eq_true]
      exact ⟨e, he, hsome⟩
    unfold sort_events_by_time
    rw [if_neg hne, if_pos hany]
    exact ⟨List.perm_insertionSort tsRel events,
           List.sorted_insertionSort tsRel events,
           fun c => insertionSort_filter_key events c⟩

def c3Demo : List Event :=
  [[("comm", JVal.str "x")], [("ts_ns", JVal.int 5)], [("ts_ns", JVal.int 3)]]

theorem c3_witness :
    sort_events_by_time c3Demo
      = [[("ts_ns", JVal.int 3)], [("ts_ns", JVal.int 5)], [("comm", JVal.str "x")]] ∧
    List.Sorted tsRel (sort_events_by_time c3Demo) := by
  refine ⟨by rfl, ?_⟩
  exact ((c3_sort_events_by_time_spec c3Demo).2
    ⟨[("ts_ns", JVal.int 5)], by simp [c3Demo], by rfl⟩).2.1

/-!  Claim C9: window_rate availability and peak-bucket selection. -/

/-- Python `max(..., key=count)` returns the first element attaining the
maximal count. -/
theorem pyMaxByCount_first_max (l : List (Int × Nat)) (m : Int × Nat)
    (h : pyMaxByCount l = some m) :
    m ∈ l ∧ (∀ p ∈ l, p.2 ≤ m.2) ∧ l.find? (fun p => m.2 ≤ p.2) = some m := by
  match l, h with
  | x :: xs, h =>
    simp only [pyMaxByCount, Option.some.injEq] at h
    induction xs generalizing x with
    | nil =>
      simp only [List.foldl_nil] at h
      subst h
      refine ⟨by simp, by simp, ?_⟩
      rw [List.find?_cons_of_pos _ (by simp)]
    | cons y ys ih =>
      rw [List.foldl_cons] at h
      by_cases hxy : x.2 < y.2
      · rw [if_pos hxy] at h
        obtain ⟨hmem, hbound, hfind⟩ := ih y h
        refine ⟨List.mem_cons_of_mem x hmem, ?_, ?_⟩
        · intro p hp
          rcases List.mem_cons.mp hp with rfl | hp2
          · have := hbound y (by simp)
            omega
          · exact hbound p hp2
        · have hxm : ¬(m.2 ≤ x.2) := by
            have := hbound y (by simp)
            omega
          rw [List.find?_cons_of_neg _ (by simpa using hxm)]
          exact hfind
      · rw [if_neg hxy] at h
        obtain ⟨hmem, hbound, hfind⟩ := ih x h
        have hybound : y.2 ≤ m.2 := by
          have hx2 : x.2 ≤ m.2 := hbound x (by simp)
          omega
        refine ⟨?_, ?_, ?_⟩
        · rcases List.mem_cons.mp hmem with rfl | hp2
          · simp
          · exact List.mem_cons_of_mem x (List.mem_cons_of_mem y hp2)
        · intro p hp
          rcases List.mem_cons.mp hp with rfl | hp2
          · exact hbound p (by simp)
          · rcases List.mem_cons.mp hp2 with rfl | hp3
            · exact hybound
            · exact hbound p (by simp [hp3])
        · by_cases hmx : m.2 ≤ x.2
          · rw [List.find?_cons_of_pos _ (by simpa using hmx)] at hfind ⊢
            exact hfind
          · rw [List.find?_cons_of_neg _ (by simpa using hmx)] at hfind
            rw [List.find?_cons_of_neg _ (by simpa using hmx)]
            have hmy : ¬(m.2 ≤ y.2) := by omega
            rw [List.find?_cons_of_neg _ (by simpa using hmy)]
            exact hfind

theorem icAdd_ne_nil (m : ICounter) (k : Int) : icAdd m k ≠ [] := by
  unfold icAdd
  by_cases hany : m.any (fun p => p.1 == k)
  · rw [if_pos hany]
    intro hemp
    rw [List.map_eq_nil_iff] at hemp
    subst hemp
    simp at hany
  · rw [if_neg hany]
    simp

theorem foldl_icAdd_ne_nil (l : List Int) (f : Int → Int) (m : ICounter) (hm : m ≠ [] ∨ l ≠ []) :
    l.foldl (fun m t => icAdd m (f t)) m ≠ [] := by
  induction l generalizing m with
  | nil =>
    rcases hm with h | h
    · simpa using h
    · cases h rfl
  | cons x xs ih =>
    rw [List.foldl_cons]
    exact ih _ (Or.inl (icAdd_ne_nil m (f x)))

theorem pyMaxByCount_eq_none (l : List (Int × Nat)) : pyMaxByCount l = none ↔ l = [] := by
  cases l <;> simp [pyMaxByCount]

/-- C9 (amended): `window_rate` at the default 1-second window is
unavailable with the exact reason string iff fewer than two events carry a
parseable `ts_ns`, and never fails; otherwise it reports a peak bucket
attaining the maximal count, the tie going to the bucket that first appears
in event order (Counter insertion order) — the earliest bucket in time when
the events are time-sorted, as they are at the pipeline's call site. -/
theorem c9_window_rate_amended (events : List Event) :
    ((events.filterMap get_ts_ns).length < 2 →
      window_rate events 1 = .ok (.unavailable "ts_ns missing or too few events")) ∧
    (2 ≤ (events.filterMap get_ts_ns).length →
      ∃ (b : Int) (pc : Nat) (pr ar : ℚ), window_rate events 1
          = .ok (.available 1 pr ((b : ℚ) * 1) (((b : ℚ) + 1) * 1) pc ar
              (rateBuckets events 1).length) ∧
        (∀ p ∈ rateBuckets events 1, p.2 ≤ pc) ∧
        (rateBuckets events 1).find? (fun p => pc ≤ p.2) = some (b, pc)) := by
  constructor
  · intro h
    unfold window_rate
    rw [if_pos h]
  · intro h
    have hbne : rateBuckets events 1 ≠ [] := by
      unfold rateBuckets
      apply foldl_icAdd_ne_nil
      refine Or.inr ?_
      intro hnil
      rw [hnil] at h
      simp at h
    cases hmax : pyMaxByCount (rateBuckets events 1) with
    | none => exact absurd ((pyMaxByCount_eq_none _).mp hmax) hbne
    | some m =>
      obtain ⟨b, pc⟩ := m
      obtain ⟨hmem, hbound, hfind⟩ := pyMaxByCount_first_max _ _ hmax
      refine ⟨b, pc, (pc : ℚ) / 1,
        ((((rateBuckets events 1).foldl (fun a p => a + p.2) 0 : Nat) : ℚ)
          / (max (rateBuckets events 1).length 1 : ℚ) / 1), ?_, hbound, hfind⟩
      have hwin : pyIntOfRat ((1 : ℚ) * 1000000000) = 1000000000 := by
        rw [one_mul]
        exact_mod_cast pyIntOfRat_intCast 1000000000
      have hlen : ¬((events.filterMap get_ts_ns).length < 2) := by omega
      simp only [window_rate, hwin, hmax, if_neg hlen]
      norm_num

def c9Demo : List Event := [[("ts_ns", JVal.int 5000000000)], [("ts_ns", JVal.int 0)]]

/-- C9 counterexample: on two timestamped events arriving out of time
order, buckets 5 and 0 both attain the maximal count 1, bucket 0 is the
earliest in time, yet `window_rate` reports the peak window `[5 s, 6 s)` —
the first bucket *encountered*, not the earliest tied bucket. -/
theorem c9_counterexample_tie_not_earliest :
    window_rate c9Demo 1 = .ok (.available 1 1 5 6 1 1 2) ∧
    icGet (rateBuckets c9Demo 1) 0 = 1 ∧
    icGet (rateBuckets c9Demo 1) 5 = 1 ∧
    (∀ p ∈ rateBuckets c9Demo 1, p.2 ≤ 1) ∧
    (0 : Int) < 5 := by
  have hwin : pyIntOfRat ((1 : ℚ) * 1000000000) = 1000000000 := by
    rw [one_mul]
    exact_mod_cast pyIntOfRat_intCast 1000000000
  have hrb : rateBuckets c9Demo 1 = [(5, 1), (0, 1)] := by
    simp only [rateBuckets, hwin]
    rfl
  refine ⟨?_, ?_, ?_, ?_, by omega⟩
  · have hlen : ¬((c9Demo.filterMap get_ts_ns).length < 2) := by decide
    have hmax : pyMaxByCount ([(5, 1), (0, 1)] : ICounter) = some (5, 1) := rfl
    simp only [window_rate, hwin, if_neg hlen, hrb, hmax]
    norm_num
  · rw [hrb]; rfl
  · rw [hrb]; rfl
  · intro p hp
    rw [hrb] at hp
    rcases List.mem_cons.mp hp with rfl | hp2
    · omega
    · rcases List.mem_cons.mp hp2 with rfl | hp3
      · omega
      · cases hp3

theorem c9_witness :
    2 ≤ (c9Demo.filterMap get_ts_ns).length ∧
    (∃ (b : Int) (pc : Nat) (pr ar : ℚ), window_rate c9Demo 1
        = .ok (.available 1 pr ((b : ℚ) * 1) (((b : ℚ) + 1) * 1) pc ar
            (rateBuckets c9Demo 1).length) ∧
      (∀ p ∈ rateBuckets c9Demo 1, p.2 ≤ pc) ∧
      (rateBuckets c9Demo 1).find? (fun p => pc ≤ p.2) = some (b, pc)) :=
  ⟨by decide, (c9_window_rate_amended c9Demo).2 (by decide)⟩

/-!  Claim C10: termination of `build_subtree` from the roots.

The recursion follows child edges; each pid records exactly one ppid, so
the parent chain from any node reachable from a root leaves the pid domain,
its prefix inside the domain visits pairwise distinct pids, and the
recursion depth is bounded by `|pid_to_ppid|`. -/

/-- One step up the parent map (identity outside the domain). -/
def parStep (ppids : List (Int × Int)) (p : Int) : Int := (iMapGet ppids p).getD p

/-- Iterated parent. -/
def chainPar (ppids : List (Int × Int)) : Nat → Int → Int
  | 0, p => p
  | k + 1, p => chainPar ppids k (parStep ppids p)

/-- Membership in the pid domain (`all_pids`). -/
def inDomB (ppids : List (Int × Int)) (p : Int) : Bool := (iMapGet ppids p).isSome

theorem chainPar_add (ppids : List (Int × Int)) (a b : Nat) (p : Int) :
    chainPar ppids (a + b) p = chainPar ppids b (chainPar ppids a p) := by
  induction a generalizing p with
  | zero => rw [Nat.zero_add]; rfl
  | succ a ih =>
    have : a + 1 + b = (a + b) + 1 := by omega
    rw [this]
    show chainPar ppids (a + b) (parStep ppids p) = _
    rw [ih]
    rfl

theorem inDomB_iff_mem_keys (m : List (Int × Int)) (p : Int) :
    inDomB m p = true ↔ p ∈ m.map Prod.fst := by
  unfold inDomB iMapGet
  constructor
  · intro h
    cases hf : m.find? (fun q => q.1 == p) with
    | none => rw [hf] at h; cases h
    | some q =>
      have hq1 : q.1 = p := by simpa using List.find?_some hf
      exact List.mem_map.mpr ⟨q, List.mem_of_find?_eq_some hf, hq1⟩
  · intro hm
    obtain ⟨q, hq, hqp⟩ := List.mem_map.mp hm
    have : (m.find? (fun q => q.1 == p)).isSome = true := by
      rw [List.find?_isSome]
      exact ⟨q, hq, by simpa using hqp⟩
    cases hf : m.find? (fun q => q.1 == p) with
    | none => rw [hf] at this; cases this
    | some r => rfl

theorem iMapSet_keys_nodup {α : Type} (m : List (Int × α)) (k : Int) (v : α)
    (h : (m.map Prod.fst).Nodup) : ((iMapSet m k v).map Prod.fst).Nodup := by
  unfold iMapSet
  by_cases hany : m.any (fun p => p.1 == k)
  · rw [if_pos hany]
    have : (m.map (fun p => if p.1 == k then (p.1, v) else p)).map Prod.fst = m.map Prod.fst := by
      rw [List.map_map]
      apply List.map_congr_left
      intro p _
      by_cases hp : p.1 = k <;> simp [hp]
    rw [this]
    exact h
  · rw [if_neg hany]
    rw [List.map_append]
    simp only [List.map_cons, List.map_nil]
    rw [List.nodup_append]
    refine ⟨h, by simp, ?_⟩
    intro a ha
    simp only [List.mem_singleton]
    intro hak
    obtain ⟨q, hq, hqa⟩ := List.mem_map.mp ha
    have hany2 : m.any (fun p => p.1 == k) = false := by
      revert hany; cases m.any (fun p => p.1 == k) <;> simp
    have hqk := List.any_eq_false.mp hany2 q hq
    rw [hqa, hak] at hqk
    simp at hqk

theorem pidToPpid_keys_nodup (events : List Event) :
    ((pidToPpid events).map Prod.fst).Nodup := by
  unfold pidToPpid
  suffices H : ∀ (l : List Event) (m : List (Int × Int)), (m.map Prod.fst).Nodup →
      ((l.foldl (fun m ev =>
        let pid := evGet ev "pid" .null
        let ppid := evGet ev "ppid" .null
        if pyIsInt pid && pyIsInt ppid then iMapSet m (pyIntVal pid) (pyIntVal ppid) else m)
        m).map Prod.fst).Nodup by
    exact H events [] (by simp)
  intro l
  induction l with
  | nil => intro m hm; exact hm
  | cons ev rest ih =>
    intro m hm
    rw [List.foldl_cons]
    apply ih
    by_cases hc : pyIsInt (evGet ev "pid" .null) && pyIsInt (evGet ev "ppid" .null)
    · simp only [hc, if_pos]
      exact iMapSet_keys_nodup _ _ _ hm
    · simp only [hc, Bool.false_eq_true, if_neg]
      exact hm

theorem iMapGet_eq_of_mem_nodup {α : Type} {m : List (Int × α)} {a : Int} {b : α}
    (hnd : (m.map Prod.fst).Nodup) (hmem : (a, b) ∈ m) : iMapGet m a = some b := by
  induction m with
  | nil => cases hmem
  | cons x xs ih =>
    rcases List.mem_cons.mp hmem with rfl | hmem2
    · unfold iMapGet
      rw [List.find?_cons_of_pos _ (by simp)]
      rfl
    · have hx : x.1 ≠ a := by
        intro hxa
        rw [List.map_cons, List.nodup_cons] at hnd
        exact hnd.1 (hxa ▸ List.mem_map.mpr ⟨(a, b), hmem2, rfl⟩)
      unfold iMapGet
      rw [List.find?_cons_of_neg _ (by simpa using hx)]
      exact ih (by rw [List.map_cons, List.nodup_cons] at hnd; exact hnd.2) hmem2

/-- Every child recorded under a key of the children map is an entry of
`pid_to_ppid` with that key as its recorded ppid. -/
theorem childrenMap_origin (ppids : List (Int × Int)) :
    ∀ key l, iMapGet (childrenMap ppids) key = some l →
      ∀ c ∈ l, (c, key) ∈ ppids := by
  unfold childrenMap
  suffices H : ∀ (l0 : List (Int × Int)), (∀ x ∈ l0, x ∈ ppids) →
      ∀ (m : List (Int × List Int)),
      (∀ key lst, iMapGet m key = some lst → ∀ c ∈ lst, (c, key) ∈ ppids) →
      ∀ key lst, iMapGet (l0.foldl (fun m p =>
        if p.2 ≠ p.1 then
          match iMapGet m p.2 with
          | some l2 => iMapSet m p.2 (l2 ++ [p.1])
          | none => m ++ [(p.2, [p.1])]
        else m) m) key = some lst → ∀ c ∈ lst, (c, key) ∈ ppids by
    exact H ppids (fun x hx => hx) [] (fun key lst h => by simp [iMapGet] at h)
  intro l0
  induction l0 with
  | nil => intro _ m hm; exact hm
  | cons p rest ih =>
    intro hsub m hm
    rw [List.foldl_cons]
    apply ih (fun x hx => hsub x (by simp [hx]))
    by_cases hself : p.2 ≠ p.1
    · rw [if_pos hself]
      have hp : p ∈ ppids := hsub p (by simp)
      cases hcur : iMapGet m p.2 with
      | some l2 =>
        intro key lst hk c hc
        by_cases hkp : key = p.2
        · subst hkp
          rw [iMapGet_set_self] at hk
          cases hk
          rcases List.mem_append.mp hc with h1 | h2
          · exact hm _ _ hcur c h1
          · simp only [List.mem_singleton] at h2
            subst h2
            have : (p.1, p.2) = p := rfl
            rw [this]
            exact hp
        · rw [iMapGet_set_ne _ _ _ _ hkp] at hk
          exact hm _ _ hk c hc
      | none =>
        intro key lst hk c hc
        rw [iMapGet_append_single] at hk
        cases hcur2 : iMapGet m key with
        | some v =>
          rw [hcur2] at hk
          cases hk
          exact hm _ _ hcur2 c hc
        | none =>
          rw [hcur2] at hk
          by_cases hpk : p.2 = key
          · rw [if_pos hpk] at hk
            cases hk
            simp only [List.mem_singleton] at hc
            subst hc
            rw [← hpk]
            have : (p.1, p.2) = p := rfl
            rw [this]
            exact hp
          · rw [if_neg hpk] at hk
            cases hk
    · rw [if_neg hself]
      exact hm

/-- The in-domain prefix of an exiting parent chain visits pairwise
distinct pids, so its length is at most `|pid_to_ppid|`. -/
theorem chain_exit_bound (ppids : List (Int × Int)) (k : Nat) (p : Int)
    (hex : inDomB ppids (chainPar ppids k p) = false)
    (hin : ∀ i, i < k → inDomB ppids (chainPar ppids i p) = true) :
    k ≤ ppids.length := by
  have hinj : Set.InjOn (fun i : Fin k => chainPar ppids i p) (Finset.univ : Finset (Fin k)) := by
    intro i _ j _ hij
    simp only at hij
    by_contra hne
    rcases Nat.lt_or_ge i.val j.val with hlt | hge
    · have hchain : chainPar ppids k p = chainPar ppids (i.val + (k - j.val)) p :=
        calc chainPar ppids k p
            = chainPar ppids (j.val + (k - j.val)) p := by
              rw [show j.val + (k - j.val) = k from by omega]
          _ = chainPar ppids (k - j.val) (chainPar ppids j.val p) := chainPar_add _ _ _ _
          _ = chainPar ppids (k - j.val) (chainPar ppids i.val p) := by rw [hij]
          _ = chainPar ppids (i.val + (k - j.val)) p := (chainPar_add _ _ _ _).symm
      have hcontra := hin (i.val + (k - j.val)) (by omega)
      rw [← hchain] at hcontra
      rw [hcontra] at hex
      cases hex
    · have hlt2 : j.val < i.val := by
        rcases Nat.lt_or_ge j.val i.val with h2 | h2
        · exact h2
        · exact absurd (Fin.val_injective (by omega)) hne
      have hchain : chainPar ppids k p = chainPar ppids (j.val + (k - i.val)) p :=
        calc chainPar ppids k p
            = chainPar ppids (i.val + (k - i.val)) p := by
              rw [show i.val + (k - i.val) = k from by omega]
          _ = chainPar ppids (k - i.val) (chainPar ppids i.val p) := chainPar_add _ _ _ _
          _ = chainPar ppids (k - i.val) (chainPar ppids j.val p) := by rw [hij]
          _ = chainPar ppids (j.val + (k - i.val)) p := (chainPar_add _ _ _ _).symm
      have hcontra := hin (j.val + (k - i.val)) (by omega)
      rw [← hchain] at hcontra
      rw [hcontra] at hex
      cases hex
  have hmaps : ∀ i : Fin k, (fun i : Fin k => chainPar ppids i p) i ∈
      (ppids.map Prod.fst).toFinset := by
    intro i
    rw [List.mem_toFinset]
    exact (inDomB_iff_mem_keys _ _).mp (hin i.val i.isLt)
  have hcard := Finset.card_le_card_of_injOn (fun i : Fin k => chainPar ppids i p)
    (fun i _ => hmaps i) hinj
  rw [Finset.card_univ, Fintype.card_fin] at hcard
  calc k ≤ (ppids.map Prod.fst).toFinset.card := hcard
    _ ≤ (ppids.map Prod.fst).length := List.toFinset_card_le _
    _ = ppids.length := List.length_map _ _

theorem mapM_option_isSome {α β : Type} (f : α → Option β) (l : List α)
    (h : ∀ a ∈ l, (f a).isSome = true) : (l.mapM f).isSome = true := by
  induction l with
  | nil => rfl
  | cons x xs ih =>
    rw [List.mapM_cons]
    cases hx : f x with
    | none =>
      have := h x (by simp)
      rw [hx] at this
      cases this
    | some y =>
      have hs := ih (fun a ha => h a (by simp [ha]))
      cases hxs : xs.mapM f with
      | none => rw [hxs] at hs; cases hs
      | some ys => simp [hx, hxs]

/-- Fuel sufficiency for `build_subtree`: if the parent chain from `p`
leaves the pid domain after exactly `k` in-domain steps, fuel
`|pid_to_ppid| + 1 - k` suffices. -/
theorem build_subtree_total (comms : List (Int × String)) (ppids : List (Int × Int))
    (hnd : (ppids.map Prod.fst).Nodup) :
    ∀ fuel k p, inDomB ppids (chainPar ppids k p) = false →
      (∀ i, i < k → inDomB ppids (chainPar ppids i p) = true) →
      ppids.length + 1 ≤ fuel + k →
      (build_subtree comms (childrenMap ppids) fuel p).isSome = true := by
  intro fuel
  induction fuel with
  | zero =>
    intro k p hex hin hb
    exfalso
    have := chain_exit_bound ppids k p hex hin
    omega
  | succ fuel ih =>
    intro k p hex hin hb
    have hkids : ∀ c ∈ (childrenOf (childrenMap ppids) p).insertionSort (fun a b => a ≤ b),
        (build_subtree comms (childrenMap ppids) fuel c).isSome = true := by
      intro c hc
      have hc2 : c ∈ childrenOf (childrenMap ppids) p := (List.mem_insertionSort _).mp hc
      unfold childrenOf at hc2
      cases hcm : iMapGet (childrenMap ppids) p with
      | none => rw [hcm] at hc2; cases hc2
      | some l =>
        rw [hcm] at hc2
        have hcp : (c, p) ∈ ppids := childrenMap_origin ppids p l hcm c hc2
        have hget : iMapGet ppids c = some p := iMapGet_eq_of_mem_nodup hnd hcp
        have hstep : parStep ppids c = p := by unfold parStep; rw [hget]; rfl
        apply ih (k + 1) c
        · show inDomB ppids (chainPar ppids (k + 1) c) = false
          have hch : chainPar ppids (k + 1) c = chainPar ppids k p := by
            show chainPar ppids k (parStep ppids c) = _
            rw [hstep]
          rw [hch]
          exact hex
        · intro i hi
          cases i with
          | zero =>
            show inDomB ppids c = true
            unfold inDomB
            rw [hget]
            rfl
          | succ i2 =>
            have hch : chainPar ppids (i2 + 1) c = chainPar ppids i2 p := by
              show chainPar ppids i2 (parStep ppids c) = _
              rw [hstep]
            rw [hch]
            exact hin i2 (by omega)
        · omega
    rw [build_subtree]
    cases hmm : ((childrenOf (childrenMap ppids) p).insertionSort (fun a b => a ≤ b)).mapM
        (build_subtree comms (childrenMap ppids) fuel) with
    | none =>
      have := mapM_option_isSome _ _ hkids
      rw [hmm] at this
      cases this
    | some sub => simp [hmm]

/-- Every root's subtree is built successfully with fuel
`|pid_to_ppid| + 1`. -/
theorem roots_subtree_isSome (events : List Event) :
    ∀ r ∈ rootsOf (pidToPpid events),
      (build_subtree (pidToComm events) (childrenMap (pidToPpid events))
        ((pidToPpid events).length + 1) r).isSome = true := by
  intro r hr
  have hnd := pidToPpid_keys_nodup events
  unfold rootsOf at hr
  obtain ⟨q, hqf, hq1⟩ := List.mem_map.mp hr
  have hqmem := (List.mem_filter.mp hqf).1
  have hqcond := (List.mem_filter.mp hqf).2
  have hany : (pidToPpid events).any (fun z => z.1 == q.2) = false := by
    revert hqcond
    cases (pidToPpid events).any (fun z => z.1 == q.2) <;> simp
  have hget : iMapGet (pidToPpid events) r = some q.2 := by
    rw [← hq1]
    exact iMapGet_eq_of_mem_nodup hnd (by rw [show (q.1, q.2) = q from rfl]; exact hqmem)
  apply build_subtree_total _ _ hnd ((pidToPpid events).length + 1) 1 r
  · show inDomB (pidToPpid events) (chainPar (pidToPpid events) 0
      (parStep (pidToPpid events) r)) = false
    have hp : parStep (pidToPpid events) r = q.2 := by
      unfold parStep
      rw [hget]
      rfl
    show inDomB (pidToPpid events) (parStep (pidToPpid events) r) = false
    rw [hp]
    unfold inDomB iMapGet
    rw [find?_key_eq_none_of_any_eq_false hany]
    rfl
  · intro i hi
    have : i = 0 := by omega
    subst this
    show inDomB (pidToPpid events) r = true
    unfold inDomB
    rw [hget]
    rfl
  · omega

/-- `compute_process_tree` never reaches its `RecursionError` branch. -/
theorem compute_process_tree_ok (events : List Event) :
    ∃ t, compute_process_tree events = .ok t := by
  unfold compute_process_tree
  have hc : ∀ r ∈ (rootsOf (pidToPpid events)).insertionSort (fun a b => a ≤ b),
      (build_subtree (pidToComm events) (childrenMap (pidToPpid events))
        ((pidToPpid events).length + 1) r).isSome = true :=
    fun r hr => roots_subtree_isSome events r ((List.mem_insertionSort _).mp hr)
  cases hmm : ((rootsOf (pidToPpid events)).insertionSort (fun a b => a ≤ b)).mapM
      (build_subtree (pidToComm events) (childrenMap (pidToPpid events))
        ((pidToPpid events).length + 1)) with
  | none =>
    have := mapM_option_isSome _ _ hc
    rw [hmm] at this
    cases this
  | some trees =>
    refine ⟨{ roots := trees,
              flat := (((pidToPpid events).map (fun p => p.1)).insertionSort
                  (fun a b => a ≤ b)).map
                (fun pid => { pid := pid, comm := (iMapGet (pidToComm events) pid).getD "?",
                              ppid := iMapGet (pidToPpid events) pid }) }, ?_⟩
    simp only [hmm]

/-- C10: `compute_process_tree` terminates: each pid records exactly one
ppid, so the parent chain from any pid reachable from a root exits the
domain with pairwise distinct in-domain pids (no cycle is reachable from a
root), the recursion depth is bounded by `|pid_to_ppid|`, every root's
subtree is built with fuel `|pid_to_ppid| + 1`, and the pass returns ok. -/
theorem c10_process_tree_terminates (events : List Event) :
    (∀ r ∈ rootsOf (pidToPpid events),
      (build_subtree (pidToComm events) (childrenMap (pidToPpid events))
        ((pidToPpid events).length + 1) r).isSome = true) ∧
    (∃ t, compute_process_tree events = .ok t) :=
  ⟨roots_subtree_isSome events, compute_process_tree_ok events⟩

def c10Demo : List Event :=
  [[("pid", JVal.int 2), ("ppid", JVal.int 1), ("comm", JVal.str "child")],
   [("pid", JVal.int 1), ("ppid", JVal.int 0), ("comm", JVal.str "root")]]

theorem c10_witness :
    (1 : Int) ∈ rootsOf (pidToPpid c10Demo) ∧
    (build_subtree (pidToComm c10Demo) (childrenMap (pidToPpid c10Demo))
      ((pidToPpid c10Demo).length + 1) 1).isSome = true :=
  ⟨by decide, (c10_process_tree_terminates c10Demo).1 1 (by decide)⟩

/-!  Claims C1 and C5: the binder correlator. -/

theorem pyEqPair_refl (a : JVal × JVal) : pyEqPair a a = true := by
  simp [pyEqPair, pyEq_refl]

theorem pyEqPair_symm {a b : JVal × JVal} (h : pyEqPair a b = true) : pyEqPair b a = true := by
  unfold pyEqPair at *
  rw [Bool.and_eq_true] at *
  exact ⟨pyEq_symm h.1, pyEq_symm h.2⟩

theorem pyEqPair_trans {a b c : JVal × JVal} (h1 : pyEqPair a b = true)
    (h2 : pyEqPair b c = true) : pyEqPair a c = true := by
  unfold pyEqPair at *
  rw [Bool.and_eq_true] at *
  exact ⟨pyEq_trans h1.1 h2.1, pyEq_trans h1.2 h2.2⟩

/-- Total lookup (the value `m.get(k, d)` returns when it does not raise). -/
def mapGetT {α : Type} (m : PyMap α) (k : JVal) (d : α) : α :=
  match m.find? (fun p => pyEq p.1 k) with
  | some p => p.2
  | none => d

theorem mapGetD_ok {α : Type} {m : PyMap α} {k : JVal} {d v : α}
    (h : mapGetD m k d = .ok v) : v = mapGetT m k d := by
  unfold mapGetD at h
  by_cases hk : hashableJ k
  · rw [if_pos hk] at h
    cases h
    rfl
  · rw [if_neg hk] at h
    cases h

theorem dGet_ok {x : JVal} {k : String} {d v : JVal} (h : dGet x k d = .ok v) :
    v = dGetT x k d := by
  cases x <;> simp only [dGet] at h <;> (cases h <;> rfl)

/-- The value `pyAddInt` adds when it does not raise. -/
def intLikeVal : JVal → Int
  | .int n => n
  | .bool b => if b then 1 else 0
  | _ => 0

theorem pyAddInt_ok {acc : Int} {v : JVal} {r : Int} (h : pyAddInt acc v = .ok r) :
    r = acc + intLikeVal v := by
  cases v <;> simp only [pyAddInt] at h <;> (cases h <;> rfl)

/-- Total variant of `edgeGet`. -/
def edgeFindT (m : List ((JVal × JVal) × EdgeStats)) (k : JVal × JVal) : Option EdgeStats :=
  (m.find? (fun p => pyEqPair p.1 k)).map (fun p => p.2)

theorem edgeGet_ok {m : List ((JVal × JVal) × EdgeStats)} {k : JVal × JVal}
    {v : Option EdgeStats} (h : edgeGet m k = .ok v) : v = edgeFindT m k := by
  unfold edgeGet at h
  by_cases hk : hashableJ k.1 && hashableJ k.2
  · rw [if_pos hk] at h
    cases h
    rfl
  · rw [if_neg hk] at h
    cases h

/-- Total variant of `edgeSet`. -/
def edgeSetT (m : List ((JVal × JVal) × EdgeStats)) (k : JVal × JVal) (v : EdgeStats) :
    List ((JVal × JVal) × EdgeStats) :=
  if m.any (fun p => pyEqPair p.1 k)
  then m.map (fun p => if pyEqPair p.1 k then (p.1, v) else p)
  else m ++ [(k, v)]

theorem edgeSet_ok {m : List ((JVal × JVal) × EdgeStats)} {k : JVal × JVal} {v : EdgeStats}
    {m2 : List ((JVal × JVal) × EdgeStats)} (h : edgeSet m k v = .ok m2) :
    m2 = edgeSetT m k v := by
  unfold edgeSet at h
  by_cases hk : hashableJ k.1 && hashableJ k.2
  · rw [if_pos hk] at h
    cases h
    rfl
  · rw [if_neg hk] at h
    cases h

/-- `event == "binder_transaction"` as the loop tests it. -/
def specIsTx (ev : Event) : Bool := pyEq (evGet ev "event" .null) (.str "binder_transaction")

/-- `data.get("reply") == 1` as the loop tests it. -/
def specIsReply (ev : Event) : Bool :=
  pyEq (dGetT (evGet ev "data" (.obj [])) "reply" .null) (.int 1)

/-- The transactions the loop keeps: `binder_transaction` events that are
not replies. -/
def nonReplyTx (events : List Event) : List Event :=
  events.filter (fun e => specIsTx e && !(specIsReply e))

/-- The payload size one kept transaction contributes (0 when its
`debug_id` has no matching allocation event or no `data_size`). -/
def specSize (alloc_by_id : PyMap Event) (ev : Event) : Int :=
  let data := evGet ev "data" (.obj [])
  let debug_id := dGetT data "debug_id" .null
  let alloc := mapGetT alloc_by_id debug_id []
  intLikeVal (pyOrZero (dGetT (evGet alloc "data" (.obj [])) "data_size" (.int 0)))

/-- The `(sender_comm, receiver_comm)` edge one kept transaction maps to. -/
def specEdge (received_by_id : PyMap Event) (ev : Event) : JVal × JVal :=
  let data := evGet ev "data" (.obj [])
  let debug_id := dGetT data "debug_id" .null
  let to_pid := dGetT data "to_pid" .null
  let recv := mapGetT received_by_id debug_id []
  (evGet ev "comm" (.str "unknown"),
   evGet recv "comm" (if pyTruthy to_pid then .str ("pid:" ++ jvalStr to_pid) else .str "unknown"))

/-- Modelled from the spec's words: an IPC edge's byte total is the sum of
the allocation `data_size` over all correlated, non-reply transactions
mapped to that edge, an unmatched allocation contributing 0. -/
def edgeBytesSpec (alloc recv : PyMap Event) (events : List Event) (edge : JVal × JVal) : Int :=
  ((nonReplyTx events).filter (fun ev => pyEqPair (specEdge recv ev) edge)).foldl
    (fun a ev => a + specSize alloc ev) 0

theorem edgeBytesSpec_append_skip (alloc recv : PyMap Event) (processed : List Event)
    (ev : Event) (edge : JVal × JVal)
    (h : (specIsTx ev && !specIsReply ev) = false) :
    edgeBytesSpec alloc recv (processed ++ [ev]) edge
      = edgeBytesSpec alloc recv processed edge := by
  unfold edgeBytesSpec nonReplyTx
  rw [List.filter_append]
  simp [List.filter_cons, h]

theorem edgeBytesSpec_append_kept (alloc recv : PyMap Event) (processed : List Event)
    (ev : Event) (edge : JVal × JVal)
    (h : (specIsTx ev && !specIsReply ev) = true) :
    edgeBytesSpec alloc recv (processed ++ [ev]) edge =
      edgeBytesSpec alloc recv processed edge +
      (if pyEqPair (specEdge recv ev) edge then specSize alloc ev else 0) := by
  unfold edgeBytesSpec nonReplyTx
  rw [List.filter_append]
  simp only [List.filter_cons, h, if_pos, List.filter_nil]
  rw [List.filter_append]
  cases hedge : pyEqPair (specEdge recv ev) edge with
  | true =>
    simp only [List.filter_cons, hedge, if_pos, List.filter_nil, if_true]
    rw [List.foldl_append]
    rfl
  | false =>
    simp only [List.filter_cons, hedge, Bool.false_eq_true, if_neg, List.filter_nil,
      List.append_nil, if_false, add_zero]

/-- The loop invariant for the byte accumulation of the IPC graph:
every recorded edge's running `total_bytes` is the spec sum over the
processed prefix, edge keys are pairwise distinct under dict equality, and
an absent edge has spec sum 0. -/
def BInv (alloc recv : PyMap Event) (processed : List Event) (st : BState) : Prop :=
  (∀ p ∈ st.ipc, p.2.total_bytes = edgeBytesSpec alloc recv processed p.1) ∧
  st.ipc.Pairwise (fun x y => pyEqPair x.1 y.1 = false) ∧
  (∀ edge, st.ipc.find? (fun p => pyEqPair p.1 edge) = none →
    edgeBytesSpec alloc recv processed edge = 0)

theorem pyEqPair_false_symm {a b : JVal × JVal} (h : pyEqPair a b = false) :
    pyEqPair b a = false := by
  by_contra hc
  have : pyEqPair b a = true := by revert hc; cases pyEqPair b a <;> simp
  rw [pyEqPair_symm this] at h
  cases h

theorem edge_find?_map_overwrite (m : List ((JVal × JVal) × EdgeStats)) (e E : JVal × JVal)
    (v : EdgeStats) :
    (m.map (fun p => if pyEqPair p.1 e then (p.1, v) else p)).find? (fun p => pyEqPair p.1 E)
      = (m.find? (fun p => pyEqPair p.1 E)).map
          (fun p => if pyEqPair p.1 e then (p.1, v) else p) := by
  have hcomp : ((fun p : (JVal × JVal) × EdgeStats => pyEqPair p.1 E) ∘
      fun p => if pyEqPair p.1 e then (p.1, v) else p) = fun p => pyEqPair p.1 E := by
    funext p
    by_cases hp : pyEqPair p.1 e = true <;> simp [hp]
  rw [List.find?_map, hcomp]

theorem binderStep_skip_not_tx {alloc recv : PyMap Event} {st st1 : BState} {ev : Event}
    (htx : pyEq (evGet ev "event" .null) (.str "binder_transaction") = false)
    (hstep : binderStep alloc recv st ev = .ok st1) : st1 = st := by
  unfold binderStep at hstep
  rw [if_pos (by simp [htx])] at hstep
  cases hstep
  rfl

theorem binderStep_skip_reply {alloc recv : PyMap Event} {st st1 : BState} {ev : Event}
    (htx : pyEq (evGet ev "event" .null) (.str "binder_transaction") = true)
    (hrep : specIsReply ev = true)
    (hstep : binderStep alloc recv st ev = .ok st1) : st1 = st := by
  unfold binderStep at hstep
  rw [if_neg (by simp [htx])] at hstep
  obtain ⟨reply, hreply, hstep⟩ := except_bind_ok hstep
  have hrv := dGet_ok hreply
  unfold specIsReply at hrep
  rw [← hrv] at hrep
  rw [if_pos (by simp [hrep])] at hstep
  cases hstep
  rfl

/-- Characterization of a successful kept-transaction step: the IPC graph
is updated at the transaction's edge, its byte total increased by the
transaction's correlated allocation size. -/
theorem binderStep_kept {alloc recv : PyMap Event} {st st1 : BState} {ev : Event}
    (htx : pyEq (evGet ev "event" .null) (.str "binder_transaction") = true)
    (hrep : specIsReply ev = false)
    (hstep : binderStep alloc recv st ev = .ok st1) :
    ∃ ecodes, st1.ipc = edgeSetT st.ipc (specEdge recv ev)
      { count := (match edgeFindT st.ipc (specEdge recv ev) with
                  | some s => s
                  | none => { count := 0, total_bytes := 0, codes := [] }).count + 1,
        total_bytes := (match edgeFindT st.ipc (specEdge recv ev) with
                        | some s => s
                        | none => { count := 0, total_bytes := 0,
                                    codes := [] }).total_bytes + specSize alloc ev,
        codes := ecodes } := by
  unfold binderStep at hstep
  rw [if_neg (by simp [htx])] at hstep
  obtain ⟨reply, h1, hstep⟩ := except_bind_ok hstep
  have h1v := dGet_ok h1
  have hreply1 : pyEq reply (.int 1) = false := by
    unfold specIsReply at hrep
    rw [← h1v] at hrep
    exact hrep
  rw [if_neg (by simp [hreply1])] at hstep
  obtain ⟨debug_id, h2, hstep⟩ := except_bind_ok hstep
  have h2v := dGet_ok h2
  obtain ⟨to_pid, h3, hstep⟩ := except_bind_ok hstep
  have h3v := dGet_ok h3
  obtain ⟨code, h4, hstep⟩ := except_bind_ok hstep
  have h4v := dGet_ok h4
  obtain ⟨oneway, h5, hstep⟩ := except_bind_ok hstep
  obtain ⟨allocEv, h6, hstep⟩ := except_bind_ok hstep
  have h6v := mapGetD_ok h6
  obtain ⟨data_size, h7, hstep⟩ := except_bind_ok hstep
  have h7v := dGet_ok h7
  obtain ⟨total_bytes, h8, hstep⟩ := except_bind_ok hstep
  obtain ⟨recvEv, h9, hstep⟩ := except_bind_ok hstep
  have h9v := mapGetD_ok h9
  obtain ⟨code_usage, h10, hstep⟩ := except_bind_ok hstep
  obtain ⟨found, h11, hstep⟩ := except_bind_ok hstep
  have h11v := edgeGet_ok h11
  obtain ⟨ebytes, h12, hstep⟩ := except_bind_ok hstep
  have h12v := pyAddInt_ok h12
  obtain ⟨ecodes, h13, hstep⟩ := except_bind_ok hstep
  obtain ⟨ipc, h14, hstep⟩ := except_bind_ok hstep
  have h14v := edgeSet_ok h14
  simp only [pure, Except.pure, Except.ok.injEq] at hstep
  subst hstep
  subst h2v h3v h6v h7v h9v h11v h12v h14v
  refine ⟨ecodes, ?_⟩
  simp only
  unfold specEdge specSize
  rfl

theorem edgeRel_symm :
    Symmetric (fun x y : (JVal × JVal) × EdgeStats => pyEqPair x.1 y.1 = false) :=
  fun _ _ h => pyEqPair_false_symm h

theorem binderStep_BInv {alloc recv : PyMap Event} {st st1 : BState} {ev : Event}
    {processed : List Event}
    (hstep : binderStep alloc recv st ev = .ok st1)
    (hinv : BInv alloc recv processed st) :
    BInv alloc recv (processed ++ [ev]) st1 := by
  obtain ⟨hinv1, hinv2, hinv3⟩ := hinv
  by_cases htx : pyEq (evGet ev "event" .null) (.str "binder_transaction") = true
  case neg =>
    have htx2 : pyEq (evGet ev "event" .null) (.str "binder_transaction") = false := by
      revert htx; cases pyEq (evGet ev "event" .null) (.str "binder_transaction") <;> simp
    have hskip : (specIsTx ev && !specIsReply ev) = false := by
      unfold specIsTx
      rw [htx2]
      rfl
    rw [binderStep_skip_not_tx htx2 hstep]
    refine ⟨?_, hinv2, ?_⟩
    · intro p hp
      rw [edgeBytesSpec_append_skip _ _ _ _ _ hskip]
      exact hinv1 p hp
    · intro E hE
      rw [edgeBytesSpec_append_skip _ _ _ _ _ hskip]
      exact hinv3 E hE
  case pos =>
    by_cases hrep : specIsReply ev = true
    · have hskip : (specIsTx ev && !specIsReply ev) = false := by
        rw [hrep]
        simp
      rw [binderStep_skip_reply htx hrep hstep]
      refine ⟨?_, hinv2, ?_⟩
      · intro p hp
        rw [edgeBytesSpec_append_skip _ _ _ _ _ hskip]
        exact hinv1 p hp
      · intro E hE
        rw [edgeBytesSpec_append_skip _ _ _ _ _ hskip]
        exact hinv3 E hE
    · have hrep2 : specIsReply ev = false := by
        revert hrep; cases specIsReply ev <;> simp
      have hkeep : (specIsTx ev && !specIsReply ev) = true := by
        unfold specIsTx
        rw [htx, hrep2]
        rfl
      obtain ⟨ecodes, hipc⟩ := binderStep_kept htx hrep2 hstep
      cases hfind : st.ipc.find? (fun p => pyEqPair p.1 (specEdge recv ev)) with
      | some f =>
        have hfmem := List.mem_of_find?_eq_some hfind
        have hfpred : pyEqPair f.1 (specEdge recv ev) = true := by
          simpa using List.find?_some hfind
        have hfindT : edgeFindT st.ipc (specEdge recv ev) = some f.2 := by
          unfold edgeFindT
          rw [hfind]
          rfl
        have hany : st.ipc.any (fun p => pyEqPair p.1 (specEdge recv ev)) = true :=
          List.any_eq_true.mpr ⟨f, hfmem, hfpred⟩
        rw [hfindT] at hipc
        unfold edgeSetT at hipc
        rw [if_pos hany] at hipc
        refine ⟨?_, ?_, ?_⟩
        · intro p hp
          rw [hipc] at hp
          obtain ⟨q, hq, hfq⟩ := List.mem_map.mp hp
          by_cases hqe : pyEqPair q.1 (specEdge recv ev) = true
          · rw [if_pos hqe] at hfq
            have hqf : q = f := by
              by_contra hne
              have := (hinv2.forall edgeRel_symm) hq hfmem hne
              have h2 : pyEqPair q.1 f.1 = true :=
                pyEqPair_trans hqe (pyEqPair_symm hfpred)
              rw [h2] at this
              cases this
            subst hfq
            simp only
            rw [edgeBytesSpec_append_kept _ _ _ _ _ hkeep]
            rw [if_pos (pyEqPair_symm hqe)]
            rw [← hinv1 q hq, hqf]
          · have hqe2 : pyEqPair q.1 (specEdge recv ev) = false := by
              revert hqe; cases pyEqPair q.1 (specEdge recv ev) <;> simp
            rw [if_neg (by simp [hqe2])] at hfq
            subst hfq
            rw [edgeBytesSpec_append_kept _ _ _ _ _ hkeep]
            rw [if_neg (by simp [pyEqPair_false_symm hqe2])]
            rw [add_zero]
            exact hinv1 q hq
        · rw [hipc]
          rw [List.pairwise_map]
          apply hinv2.imp_of_mem
          intro x y hx hy hxy
          by_cases hxe : pyEqPair x.1 (specEdge recv ev) = true <;>
            by_cases hye : pyEqPair y.1 (specEdge recv ev) = true <;>
            simp [hxe, hye, hxy]
        · intro E hE
          rw [hipc, edge_find?_map_overwrite] at hE
          have hnone : st.ipc.find? (fun p => pyEqPair p.1 E) = none := by
            cases hn : st.ipc.find? (fun p => pyEqPair p.1 E) with
            | none => rfl
            | some r => rw [hn] at hE; cases hE
          rw [edgeBytesSpec_append_kept _ _ _ _ _ hkeep]
          have hEe : pyEqPair (specEdge recv ev) E = false := by
            by_contra hc
            have hc2 : pyEqPair (specEdge recv ev) E = true := by
              revert hc; cases pyEqPair (specEdge recv ev) E <;> simp
            have hfE : pyEqPair f.1 E = true := pyEqPair_trans hfpred hc2
            have := List.find?_eq_none.mp hnone f hfmem
            rw [hfE] at this
            simp at this
          rw [hEe]
          simp only [Bool.false_eq_true, if_neg, if_false, add_zero]
          exact hinv3 E hnone
      | none =>
        have hfindT : edgeFindT st.ipc (specEdge recv ev) = none := by
          unfold edgeFindT
          rw [hfind]
          rfl
        have hany : st.ipc.any (fun p => pyEqPair p.1 (specEdge recv ev)) = false := by
          rw [List.any_eq_false]
          intro p hp
          have := List.find?_eq_none.mp hfind p hp
          revert this
          cases pyEqPair p.1 (specEdge recv ev) <;> simp
        rw [hfindT] at hipc
        unfold edgeSetT at hipc
        rw [if_neg (by simp [hany])] at hipc
        refine ⟨?_, ?_, ?_⟩
        · intro p hp
          rw [hipc] at hp
          rcases List.mem_append.mp hp with hold | hnew
          · rw [edgeBytesSpec_append_kept _ _ _ _ _ hkeep]
            have hpe : pyEqPair p.1 (specEdge recv ev) = false := by
              have := List.find?_eq_none.mp hfind p hold
              revert this
              cases pyEqPair p.1 (specEdge recv ev) <;> simp
            rw [if_neg (by simp [pyEqPair_false_symm hpe])]
            rw [add_zero]
            exact hinv1 p hold
          · simp only [List.mem_singleton] at hnew
            subst hnew
            simp only
            rw [edgeBytesSpec_append_kept _ _ _ _ _ hkeep]
            rw [if_pos (pyEqPair_refl _)]
            rw [hinv3 _ hfind]
        · rw [hipc]
          rw [List.pairwise_append]
          refine ⟨hinv2, by simp, ?_⟩
          intro a ha b hb
          simp only [List.mem_singleton] at hb
          subst hb
          simp only
          have := List.find?_eq_none.mp hfind a ha
          revert this
          cases pyEqPair a.1 (specEdge recv ev) <;> simp
        · intro E hE
          rw [hipc, List.find?_append] at hE
          cases hn : st.ipc.find? (fun p => pyEqPair p.1 E) with
          | some r => rw [hn] at hE; simp at hE
          | none =>
            rw [hn] at hE
            simp only [Option.none_orElse] at hE
            have hEe : pyEqPair (specEdge recv ev) E = false := by
              cases hc : pyEqPair (specEdge recv ev) E with
              | false => rfl
              | true =>
                rw [List.find?_cons_of_pos _ (by simpa using hc)] at hE
                cases hE
            rw [edgeBytesSpec_append_kept _ _ _ _ _ hkeep]
            rw [hEe]
            simp only [Bool.false_eq_true, if_neg, if_false, add_zero]
            exact hinv3 E hn

theorem binderFold_BInv (alloc recv : PyMap Event) :
    ∀ (l : List Event) (st : BState) (processed : List Event),
      BInv alloc recv processed st →
      ∀ st2, l.foldlM (binderStep alloc recv) st = .ok st2 →
      BInv alloc recv (processed ++ l) st2 := by
  intro l
  induction l with
  | nil =>
    intro st processed hinv st2 h
    cases h
    simpa using hinv
  | cons ev rest ih =>
    intro st processed hinv st2 h
    rw [List.foldlM_cons] at h
    obtain ⟨st1, h1, h2⟩ := except_bind_ok h
    have hstep := binderStep_BInv h1 hinv
    have := ih st1 (processed ++ [ev]) hstep st2 h2
    simpa [List.append_assoc] using this

theorem BInv_init (alloc recv : PyMap Event) : BInv alloc recv [] initBState := by
  refine ⟨?_, ?_, ?_⟩
  · intro p hp
    cases hp
  · exact List.Pairwise.nil
  · intro E _
    rfl

/-- C5: whenever `compute_binder_analytics` produces a result, each
reported IPC edge's `total_bytes` equals the spec-side sum of the
correlated allocation `data_size` over all non-reply transactions mapped to
that edge (an unmatched allocation contributing exactly 0, without
failure). -/
theorem c5_edge_bytes_are_allocation_sums (events : List Event) (r : BinderOut)
    (h : compute_binder_analytics events = .ok r) :
    ∃ maps, binderIndex events = .ok maps ∧
      ∀ p ∈ r.ipc_graph, p.2.total_bytes = edgeBytesSpec maps.1 maps.2 events p.1 := by
  unfold compute_binder_analytics at h
  obtain ⟨maps, hm, h⟩ := except_bind_ok h
  obtain ⟨st, hst, h⟩ := except_bind_ok h
  simp only [pure, Except.pure, Except.ok.injEq] at h
  subst h
  refine ⟨maps, hm, ?_⟩
  intro p hp
  simp only at hp
  obtain ⟨q, hq, hfq⟩ := List.mem_map.mp hp
  have hqmem : q ∈ st.ipc := (List.mem_insertionSort _).mp hq
  have hinv := binderFold_BInv maps.1 maps.2 events initBState []
    (BInv_init maps.1 maps.2) st hst
  rw [List.nil_append] at hinv
  have := hinv.1 q hqmem
  rw [← hfq]
  simpa using this

def c5Demo : List Event :=
  [[("event", JVal.str "binder_transaction"), ("comm", JVal.str "A"), ("pid", JVal.int 10),
    ("data", JVal.obj [("debug_id", JVal.int 7), ("to_pid", JVal.int 20),
                       ("code", JVal.int 1), ("oneway", JVal.int 0)])],
   [("event", JVal.str "binder_transaction_alloc_buf"),
    ("data", JVal.obj [("debug_id", JVal.int 7), ("data_size", JVal.int 64)])],
   [("event", JVal.str "binder_transaction_received"), ("comm", JVal.str "B"),
    ("data", JVal.obj [("debug_id", JVal.int 7)])],
   [("event", JVal.str "binder_transaction"), ("comm", JVal.str "A"), ("pid", JVal.int 10),
    ("data", JVal.obj [("debug_id", JVal.int 8), ("to_pid", JVal.int 30),
                       ("code", JVal.int 2), ("oneway", JVal.int 1)])]]

def c5DemoOut : BinderOut :=
  { total_transactions := 2, oneway := 1, sync := 1, total_bytes_transferred := 64,
    top_codes := [(JVal.int 1, 1), (JVal.int 2, 1)],
    ipc_graph :=
      [((JVal.str "A", JVal.str "B"),
        { count := 1, total_bytes := 64, top_codes := [(JVal.int 1, 1)] }),
       ((JVal.str "A", JVal.str "pid:30"),
        { count := 1, total_bytes := 0, top_codes := [(JVal.int 2, 1)] })] }

def c5Maps : PyMap Event × PyMap Event :=
  ([(JVal.int 7,
     [("event", JVal.str "binder_transaction_alloc_buf"),
      ("data", JVal.obj [("debug_id", JVal.int 7), ("data_size", JVal.int 64)])])],
   [(JVal.int 7,
     [("event", JVal.str "binder_transaction_received"), ("comm", JVal.str "B"),
      ("data", JVal.obj [("debug_id", JVal.int 7)])])])

theorem c5_witness :
    compute_binder_analytics c5Demo = .ok c5DemoOut ∧
    binderIndex c5Demo = .ok c5Maps ∧
    edgeBytesSpec c5Maps.1 c5Maps.2 c5Demo (JVal.str "A", JVal.str "B") = 64 ∧
    edgeBytesSpec c5Maps.1 c5Maps.2 c5Demo (JVal.str "A", JVal.str "pid:30") = 0 := by
  have hcomp : compute_binder_analytics c5Demo = .ok c5DemoOut := by rfl
  have hidx : binderIndex c5Demo = .ok c5Maps := by rfl
  obtain ⟨maps, hm, hall⟩ := c5_edge_bytes_are_allocation_sums c5Demo c5DemoOut hcomp
  have hmaps : maps = c5Maps := by
    rw [hidx] at hm
    exact (Except.ok.injEq _ _).mp hm.symm
  refine ⟨hcomp, hidx, ?_, ?_⟩
  · have h64 := hall ((JVal.str "A", JVal.str "B"),
      { count := 1, total_bytes := 64, top_codes := [(JVal.int 1, 1)] })
      (by simp [c5DemoOut])
    rw [hmaps] at h64
    exact h64.symm
  · have h0 := hall ((JVal.str "A", JVal.str "pid:30"),
      { count := 1, total_bytes := 0, top_codes := [(JVal.int 2, 1)] })
      (by simp [c5DemoOut])
    rw [hmaps] at h0
    exact h0.symm

/-!  Claim C1: reply transactions and the binder aggregates. -/

theorem pyEq_str_right {x : JVal} {s : String} (h : pyEq x (.str s) = true) : x = .str s := by
  rcases (pyEq_iff _ _).mp h with ⟨q, _, hq⟩ | ⟨_, _, he⟩
  · cases hq
  · exact he

/-- The `data` field is a dict or absent (a present non-dict `data` makes
the correlator raise). -/
def dataObjOrAbsent (ev : Event) : Bool :=
  match ev.find? (fun p => p.1 == "data") with
  | none => true
  | some p =>
    match p.2 with
    | .obj _ => true
    | _ => false

theorem except_ok_bind {α β : Type} (v : α) (f : α → Except String β) :
    (Except.ok v >>= f) = f v := rfl

theorem evGet_data_obj {ev : Event} (h : dataObjOrAbsent ev = true) :
    ∃ fs, evGet ev "data" (.obj []) = .obj fs := by
  unfold dataObjOrAbsent at h
  unfold evGet
  cases hf : ev.find? (fun p => p.1 == "data") with
  | none => exact ⟨[], rfl⟩
  | some p =>
    rw [hf] at h
    simp only at h ⊢
    cases hp : p.2 with
    | obj fs => exact ⟨fs, rfl⟩
    | null => simp [hp] at h
    | bool b => simp [hp] at h
    | int n => simp [hp] at h
    | float q => simp [hp] at h
    | str s => simp [hp] at h
    | arr l => simp [hp] at h

theorem evGet_present_eq {ev : Event} {k : String} {v d1 d2 : JVal}
    (h : evGet ev k d1 = v) (hv1 : v ≠ d1) : evGet ev k d2 = v := by
  unfold evGet at *
  cases hf : ev.find? (fun p => p.1 == k) with
  | none =>
    rw [hf] at h
    simp only at h
    exact absurd h.symm hv1
  | some p =>
    rw [hf] at h
    simp only at h ⊢
    exact h

/-- A transaction event with well-formed `data` is a no-op for the indexing
pass (it is neither an allocation nor a received event). -/
theorem binderIndexStep_tx_eval {ev : Event}
    (htx : specIsTx ev = true) (hobj : dataObjOrAbsent ev = true) :
    ∀ maps, binderIndexStep maps ev = .ok maps := by
  intro maps
  unfold binderIndexStep
  have hev : evGet ev "event" .null = .str "binder_transaction" := pyEq_str_right htx
  have hev2 : evGet ev "event" (.str "") = .str "binder_transaction" :=
    evGet_present_eq hev (by intro h; cases h)
  obtain ⟨fs, hfs⟩ := evGet_data_obj hobj
  rw [hev2, hfs]
  simp only [show dGet (JVal.obj fs) "debug_id" JVal.null
      = .ok (dGetT (JVal.obj fs) "debug_id" JVal.null) from rfl, except_ok_bind]
  by_cases hnull : (dGetT (JVal.obj fs) "debug_id" JVal.null == JVal.null) = true
  · rw [if_pos hnull]
    rfl
  · rw [if_neg hnull]
    rw [if_neg (by rw [show pyEq (JVal.str "binder_transaction")
          (JVal.str "binder_transaction_alloc_buf") = false from rfl]; simp)]
    rw [if_neg (by rw [show pyEq (JVal.str "binder_transaction")
          (JVal.str "binder_transaction_received") = false from rfl]; simp)]
    rfl

/-- A reply transaction with well-formed `data` is a no-op for the
transaction loop. -/
theorem binderStep_reply_eval {alloc recv : PyMap Event} {ev : Event}
    (htx : specIsTx ev = true) (hrep : specIsReply ev = true)
    (hobj : dataObjOrAbsent ev = true) :
    ∀ st, binderStep alloc recv st ev = .ok st := by
  intro st
  unfold binderStep
  unfold specIsTx at htx
  rw [if_neg (by simp [htx])]
  obtain ⟨fs, hfs⟩ := evGet_data_obj hobj
  simp only [show dGet (evGet ev "data" (JVal.obj [])) "reply" JVal.null
      = .ok (dGetT (evGet ev "data" (JVal.obj [])) "reply" JVal.null) from by rw [hfs]; rfl,
    except_ok_bind]
  unfold specIsReply at hrep
  rw [if_pos hrep]
  rfl

/-- A sync (`reply == 1`) transaction event, C1 counterexample input. -/
def c1ReplyEv : Event :=
  [("event", JVal.str "binder_transaction"), ("comm", JVal.str "A"), ("pid", JVal.int 10),
   ("data", JVal.obj [("reply", JVal.int 1), ("debug_id", JVal.int 7),
                      ("to_pid", JVal.int 20), ("code", JVal.int 1), ("oneway", JVal.int 0)])]

/-- The same event with `reply == 0`. -/
def c1SyncEv : Event :=
  [("event", JVal.str "binder_transaction"), ("comm", JVal.str "A"), ("pid", JVal.int 10),
   ("data", JVal.obj [("reply", JVal.int 0), ("debug_id", JVal.int 7),
                      ("to_pid", JVal.int 20), ("code", JVal.int 1), ("oneway", JVal.int 0)])]

/-- C1 counterexample: a `reply == 1` binder transaction is excluded not just
from the topology but from every aggregate - its output is identical to the
empty run (total_transactions 0, no codes, no bytes) - while the `reply == 0`
variant of the very same event is counted everywhere. -/
theorem c1_counterexample_reply_excluded_from_all_counts :
    compute_binder_analytics [c1ReplyEv] = .ok
      { total_transactions := 0, oneway := 0, sync := 0, total_bytes_transferred := 0,
        top_codes := [], ipc_graph := [] } ∧
    compute_binder_analytics [c1SyncEv] = .ok
      { total_transactions := 1, oneway := 0, sync := 1, total_bytes_transferred := 0,
        top_codes := [(JVal.int 1, 1)],
        ipc_graph := [((JVal.str "A", JVal.str "pid:20"),
          { count := 1, total_bytes := 0, top_codes := [(JVal.int 1, 1)] })] } :=
  ⟨rfl, rfl⟩

/-- C1 (amended): the `reply == 1` `continue` fires before every aggregate
update, so reply transactions (with well-formed `data`) are invisible to the
whole of `compute_binder_analytics` - dropping them from the input changes
nothing. -/
theorem c1_reply_transactions_fully_skipped (events : List Event)
    (h : ∀ e ∈ events, specIsTx e = true → specIsReply e = true →
         dataObjOrAbsent e = true) :
    compute_binder_analytics events =
      compute_binder_analytics
        (events.filter (fun e => !(specIsTx e && specIsReply e))) := by
  have hk : ∀ a ∈ events, (!(specIsTx a && specIsReply a)) = false →
      specIsTx a = true ∧ specIsReply a = true := by
    intro a _ hka
    have hb : (specIsTx a && specIsReply a) = true := by
      cases hb : (specIsTx a && specIsReply a) with
      | true => rfl
      | false => rw [hb] at hka; cases hka
    simpa [Bool.and_eq_true] using hb
  unfold compute_binder_analytics binderIndex
  have hidx : events.foldlM binderIndexStep (([], []) : PyMap Event × PyMap Event)
      = (events.filter (fun e => !(specIsTx e && specIsReply e))).foldlM
          binderIndexStep ([], []) :=
    foldlM_filter_of_skip _ _ _
      (fun a ha hka b => by
        obtain ⟨htx, hrep⟩ := hk a ha hka
        exact binderIndexStep_tx_eval htx (h a ha htx hrep) b) _
  rw [hidx]
  cases hF : (events.filter (fun e => !(specIsTx e && specIsReply e))).foldlM
      binderIndexStep (([], []) : PyMap Event × PyMap Event) with
  | error e => rfl
  | ok maps =>
    simp only [except_ok_bind]
    rw [foldlM_filter_of_skip (binderStep maps.1 maps.2) _ _
      (fun a ha hka st => by
        obtain ⟨htx, hrep⟩ := hk a ha hka
        exact binderStep_reply_eval htx hrep (h a ha htx hrep) st) initBState]

/-- Witness: the amended theorem applied to a two-event list containing one
reply and one sync transaction. -/
theorem c1_witness :
    (∀ e ∈ [c1ReplyEv, c1SyncEv], specIsTx e = true → specIsReply e = true →
       dataObjOrAbsent e = true) ∧
    compute_binder_analytics [c1ReplyEv, c1SyncEv] =
      compute_binder_analytics
        ([c1ReplyEv, c1SyncEv].filter (fun e => !(specIsTx e && specIsReply e))) :=
  ⟨by decide, c1_reply_transactions_fully_skipped [c1ReplyEv, c1SyncEv] (by decide)⟩

/-!  C2: totality of `compute_analytics` on well-typed events, and the two
crash points that refute totality on arbitrary parsed JSON objects. -/

/-- The field `k` is either absent from the event or carries a string. -/
def strOrAbsent (ev : Event) (k : String) : Bool :=
  match ev.find? (fun p => p.1 == k) with
  | none => true
  | some p => match p.2 with | .str _ => true | _ => false

/-- A Python value accepted by the model's integer accumulators. -/
def intLikeB : JVal → Bool
  | .int _ => true
  | .bool _ => true
  | _ => false

/-- The `data` field is absent or a dict whose `debug_id` and `code` are
hashable and whose `data_size` is an int (or bool). -/
def wtData (ev : Event) : Bool :=
  match ev.find? (fun p => p.1 == "data") with
  | none => true
  | some p =>
    match p.2 with
    | .obj fs => hashableJ (dGetT (.obj fs) "debug_id" .null) &&
                 hashableJ (dGetT (.obj fs) "code" .null) &&
                 intLikeB (dGetT (.obj fs) "data_size" (.int 0))
    | _ => false

/-- Well-typed event: `event`, `comm` and `decoded` are strings when
present, and `data` is a well-typed dict when present.  Every field may be
absent. -/
def wtEvent (ev : Event) : Bool :=
  strOrAbsent ev "event" && strOrAbsent ev "comm" && strOrAbsent ev "decoded" && wtData ev

theorem evGet_str_or_default {ev : Event} {k : String} (d : JVal)
    (h : strOrAbsent ev k = true) :
    evGet ev k d = d ∨ ∃ s, evGet ev k d = .str s := by
  unfold strOrAbsent at h
  unfold evGet
  cases hf : ev.find? (fun p => p.1 == k) with
  | none => exact Or.inl rfl
  | some p =>
    rw [hf] at h
    simp only at h ⊢
    cases hp : p.2 <;> rw [hp] at h <;> first
      | exact Or.inr ⟨_, rfl⟩
      | cases h

theorem wtData_obj {ev : Event} (h : wtData ev = true) :
    ∃ fs, evGet ev "data" (.obj []) = .obj fs ∧
      hashableJ (dGetT (.obj fs) "debug_id" .null) = true ∧
      hashableJ (dGetT (.obj fs) "code" .null) = true ∧
      intLikeB (dGetT (.obj fs) "data_size" (.int 0)) = true := by
  unfold wtData at h
  unfold evGet
  cases hf : ev.find? (fun p => p.1 == "data") with
  | none => exact ⟨[], rfl, rfl, rfl, rfl⟩
  | some p =>
    rw [hf] at h
    simp only at h ⊢
    cases hp : p.2 <;> rw [hp] at h
    case obj fs =>
      simp only [Bool.and_eq_true] at h
      exact ⟨fs, rfl, h.1.1, h.1.2, h.2⟩
    all_goals cases h

theorem pyEq_false_symm {a b : JVal} (h : pyEq a b = false) : pyEq b a = false := by
  cases hb : pyEq b a with
  | false => rfl
  | true => rw [pyEq_symm hb] at h; cases h

/-- A fold that preserves an invariant and succeeds from any invariant
state succeeds overall, with the invariant at the result. -/
theorem foldlM_inv {α β : Type} (f : β → α → Except String β) (P : β → Prop) (l : List α)
    (h : ∀ b a, a ∈ l → P b → ∃ b2, f b a = .ok b2 ∧ P b2) :
    ∀ init, P init → ∃ r, l.foldlM f init = .ok r ∧ P r := by
  induction l with
  | nil => exact fun init hP => ⟨init, rfl, hP⟩
  | cons x xs ih =>
    intro init hP
    obtain ⟨b2, hb2, hP2⟩ := h init x (by simp) hP
    obtain ⟨r, hr, hPr⟩ := ih (fun b a ha => h b a (by simp [ha])) b2 hP2
    exact ⟨r, by simp only [List.foldlM_cons, hb2, except_ok_bind, hr], hPr⟩

theorem mapGetT_mem {α : Type} (m : PyMap α) (k : JVal) (d : α) :
    mapGetT m k d = d ∨ ∃ p, p ∈ m ∧ mapGetT m k d = p.2 := by
  unfold mapGetT
  cases hf : m.find? (fun p => pyEq p.1 k) with
  | none => exact Or.inl rfl
  | some p => exact Or.inr ⟨p, List.mem_of_find?_eq_some hf, rfl⟩

theorem mapSet_values {α : Type} {m r : PyMap α} {k : JVal} {v : α}
    (h : mapSet m k v = .ok r) :
    ∀ p ∈ r, p.2 = v ∨ p ∈ m := by
  unfold mapSet at h
  by_cases hk : hashableJ k
  · rw [if_pos hk] at h
    cases h
    intro p hp
    by_cases hany : m.any (fun q => pyEq q.1 k)
    · rw [if_pos hany] at hp
      obtain ⟨q, hq, hpq⟩ := List.mem_map.mp hp
      by_cases hqk : pyEq q.1 k = true
      · rw [if_pos hqk] at hpq
        exact Or.inl (by rw [← hpq])
      · rw [if_neg hqk] at hpq
        exact Or.inr (hpq ▸ hq)
    · rw [if_neg hany] at hp
      rcases List.mem_append.mp hp with hp | hp
      · exact Or.inr hp
      · simp only [List.mem_singleton] at hp
        exact Or.inl (by rw [hp])
  · rw [if_neg hk] at h
    cases h

/-- `window_rate` at the 1-second window never raises. -/
theorem window_rate_total (evs : List Event) : ∃ r, window_rate evs 1 = .ok r := by
  by_cases hlen : (evs.filterMap get_ts_ns).length < 2
  · refine ⟨.unavailable "ts_ns missing or too few events", ?_⟩
    simp only [window_rate, if_pos hlen]
  · have hwin : pyIntOfRat ((1 : ℚ) * 1000000000) = 1000000000 := by
      rw [one_mul]
      exact_mod_cast pyIntOfRat_intCast 1000000000
    have hne : rateBuckets evs 1 ≠ [] := by
      simp only [rateBuckets, hwin]
      apply foldl_icAdd_ne_nil
      refine Or.inr ?_
      intro hnil
      rw [hnil] at hlen
      simp at hlen
    cases hmax : pyMaxByCount (rateBuckets evs 1) with
    | none => exact absurd ((pyMaxByCount_eq_none _).mp hmax) hne
    | some pk =>
      obtain ⟨b, pc⟩ := pk
      refine ⟨.available 1 ((pc : ℚ) / 1) ((b : ℚ) * 1) (((b : ℚ) + 1) * 1) pc
        ((((rateBuckets evs 1).foldl (fun a p => a + p.2) 0 : Nat) : ℚ)
          / (max (rateBuckets evs 1).length 1 : ℚ) / 1)
        (rateBuckets evs 1).length, ?_⟩
      simp only [window_rate, hwin, if_neg hlen, hmax]
      rw [if_neg (show ¬((1000000000 : Int) = 0) by norm_num)]

/-- A value of a well-typed `event` field used as a dict key is hashable. -/
theorem errnoSc_hashable {ev : Event} (h : strOrAbsent ev "event" = true) :
    hashableJ (if pyTruthy (evGet ev "event" .null) then evGet ev "event" .null
               else .str "unknown") = true := by
  rcases evGet_str_or_default JVal.null h with hd | ⟨s, hs⟩
  · rw [hd]; rfl
  · rw [hs]
    by_cases ht : pyTruthy (JVal.str s) = true
    · rw [if_pos ht]; rfl
    · rw [if_neg ht]; rfl

/-- The errno pass succeeds on events whose `event` field is well-typed. -/
theorem errnoFold_total (evs : List Event)
    (h : ∀ e ∈ evs, strOrAbsent e "event" = true) :
    ∃ r, errnoFold evs = .ok r := by
  unfold errnoFold
  apply foldlM_total
  intro acc ev hev
  cases herr : errno_from_ret (dGetT (match evGet ev "data" .null with
      | .obj fs => JVal.obj fs
      | _ => JVal.obj []) "ret" .null) with
  | none =>
    refine ⟨acc, ?_⟩
    simp only [herr]
    rfl
  | some eno =>
    have hsc := errnoSc_hashable (h ev hev)
    have hget : mapGetD acc.2 (if pyTruthy (evGet ev "event" .null)
        then evGet ev "event" .null else .str "unknown") ([] : ICounter)
        = .ok (mapGetT acc.2 (if pyTruthy (evGet ev "event" .null)
        then evGet ev "event" .null else .str "unknown") []) := by
      unfold mapGetD mapGetT
      rw [if_pos hsc]
    have hset : ∀ v, ∃ m2, mapSet acc.2 (if pyTruthy (evGet ev "event" .null)
        then evGet ev "event" .null else .str "unknown") (v : ICounter) = .ok m2 := by
      intro v
      unfold mapSet
      rw [if_pos hsc]
      exact ⟨_, rfl⟩
    obtain ⟨m2, hm2⟩ := hset (icAdd (mapGetT acc.2 (if pyTruthy (evGet ev "event" .null)
        then evGet ev "event" .null else .str "unknown") []) eno)
    refine ⟨(icAdd acc.1 eno, m2), ?_⟩
    simp only [herr, hget, except_ok_bind, hm2]
    rfl

/-- The deep-dive block succeeds on events whose `event` field is
well-typed. -/
theorem computeDeep_total (evs : List Event)
    (h : ∀ e ∈ evs, strOrAbsent e "event" = true) :
    ∃ r, computeDeep evs = .ok r := by
  by_cases hlat : (syscallLatEvents evs).isEmpty
  · exact ⟨none, by simp only [computeDeep, if_pos hlat]; rfl⟩
  · obtain ⟨acc, hacc⟩ := errnoFold_total (syscallLatEvents evs)
      (fun e he => h e (List.mem_filter.mp he).1)
    refine ⟨some
      { top_slowest := topSlowest (syscallLatEvents evs),
        p95_by_comm_top := p95ByCommTop (syscallLatEvents evs),
        errno_global_top := mostCommonI 10 acc.1,
        errno_by_syscall_top := acc.2.map (fun p => (p.1, mostCommonI 5 p.2)) }, ?_⟩
    simp only [computeDeep, if_neg hlat, hacc, except_ok_bind]
    rfl

theorem intLikeB_pyOrZero {v : JVal} (h : intLikeB v = true) :
    intLikeB (pyOrZero v) = true := by
  unfold pyOrZero
  by_cases ht : pyTruthy v = true
  · rw [if_pos ht]; exact h
  · rw [if_neg ht]; rfl

theorem pyAddInt_total (acc : Int) {v : JVal} (h : intLikeB v = true) :
    ∃ r, pyAddInt acc v = .ok r := by
  cases v <;> first
    | exact ⟨_, rfl⟩
    | cases h

theorem counterAddIfCode_total (m : PyMap Nat) {code : JVal}
    (h : hashableJ code = true) : ∃ r, counterAddIfCode m code = .ok r := by
  unfold counterAddIfCode
  by_cases hn : (code == JVal.null) = true
  · refine ⟨m, ?_⟩
    rw [hn]
    rfl
  · have hn' : (code == JVal.null) = false := by
      cases hb : (code == JVal.null) with
      | false => rfl
      | true => exact absurd hb hn
    rw [hn']
    show ∃ r, counterAdd m code = .ok r
    unfold counterAdd
    have hget : mapGetD m code 0 = .ok (mapGetT m code 0) := by
      unfold mapGetD mapGetT
      rw [if_pos h]
    have hset : mapSet m code (mapGetT m code 0 + 1)
        = .ok (if m.any (fun p => pyEq p.1 code)
               then m.map (fun p => if pyEq p.1 code then (p.1, mapGetT m code 0 + 1) else p)
               else m ++ [(code, mapGetT m code 0 + 1)]) := by
      unfold mapSet
      rw [if_pos h]
    refine ⟨(if m.any (fun p => pyEq p.1 code)
             then m.map (fun p => if pyEq p.1 code then (p.1, mapGetT m code 0 + 1) else p)
             else m ++ [(code, mapGetT m code 0 + 1)]), ?_⟩
    simp only [hget, except_ok_bind, hset]

theorem wtEvent_parts {ev : Event} (h : wtEvent ev = true) :
    strOrAbsent ev "event" = true ∧ strOrAbsent ev "comm" = true ∧
    strOrAbsent ev "decoded" = true ∧ wtData ev = true := by
  simp only [wtEvent, Bool.and_eq_true] at h
  exact ⟨h.1.1.1, h.1.1.2, h.1.2, h.2⟩

/-- One indexing step succeeds on a well-typed event and keeps every stored
value an input event. -/
theorem binderIndexStep_total {events0 : List Event}
    (hwt : ∀ e ∈ events0, wtEvent e = true)
    (maps : PyMap Event × PyMap Event)
    (hP : (∀ p ∈ maps.1, p.2 ∈ events0) ∧ (∀ p ∈ maps.2, p.2 ∈ events0))
    {ev : Event} (hev : ev ∈ events0) :
    ∃ m2, binderIndexStep maps ev = .ok m2 ∧
      (∀ p ∈ m2.1, p.2 ∈ events0) ∧ (∀ p ∈ m2.2, p.2 ∈ events0) := by
  obtain ⟨fs, hfs, hdbg, _, _⟩ := wtData_obj (wtEvent_parts (hwt ev hev)).2.2.2
  unfold binderIndexStep
  simp only [hfs, show dGet (JVal.obj fs) "debug_id" JVal.null
      = .ok (dGetT (JVal.obj fs) "debug_id" JVal.null) from rfl, except_ok_bind]
  by_cases hnull : (dGetT (JVal.obj fs) "debug_id" JVal.null == JVal.null) = true
  · rw [if_pos hnull]
    exact ⟨maps, rfl, hP⟩
  · rw [if_neg hnull]
    by_cases ha : pyEq (evGet ev "event" (.str ""))
        (.str "binder_transaction_alloc_buf") = true
    · rw [if_pos ha]
      have hm1 : mapSet maps.1 (dGetT (JVal.obj fs) "debug_id" JVal.null) ev
          = .ok (if maps.1.any (fun p => pyEq p.1 (dGetT (JVal.obj fs) "debug_id" JVal.null))
                 then maps.1.map (fun p =>
                   if pyEq p.1 (dGetT (JVal.obj fs) "debug_id" JVal.null) then (p.1, ev) else p)
                 else maps.1 ++ [(dGetT (JVal.obj fs) "debug_id" JVal.null, ev)]) := by
        unfold mapSet
        rw [if_pos hdbg]
      refine ⟨((if maps.1.any (fun p => pyEq p.1 (dGetT (JVal.obj fs) "debug_id" JVal.null))
                then maps.1.map (fun p =>
                  if pyEq p.1 (dGetT (JVal.obj fs) "debug_id" JVal.null) then (p.1, ev) else p)
                else maps.1 ++ [(dGetT (JVal.obj fs) "debug_id" JVal.null, ev)]), maps.2),
        ?_, ?_, hP.2⟩
      · simp only [hm1, except_ok_bind]
        rfl
      · intro p hp
        rcases mapSet_values hm1 p hp with h2 | h2
        · rw [h2]; exact hev
        · exact hP.1 p h2
    · rw [if_neg ha]
      by_cases hr : pyEq (evGet ev "event" (.str ""))
          (.str "binder_transaction_received") = true
      · rw [if_pos hr]
        have hm2 : mapSet maps.2 (dGetT (JVal.obj fs) "debug_id" JVal.null) ev
            = .ok (if maps.2.any (fun p => pyEq p.1 (dGetT (JVal.obj fs) "debug_id" JVal.null))
                   then maps.2.map (fun p =>
                     if pyEq p.1 (dGetT (JVal.obj fs) "debug_id" JVal.null) then (p.1, ev) else p)
                   else maps.2 ++ [(dGetT (JVal.obj fs) "debug_id" JVal.null, ev)]) := by
          unfold mapSet
          rw [if_pos hdbg]
        refine ⟨(maps.1,
          (if maps.2.any (fun p => pyEq p.1 (dGetT (JVal.obj fs) "debug_id" JVal.null))
           then maps.2.map (fun p =>
             if pyEq p.1 (dGetT (JVal.obj fs) "debug_id" JVal.null) then (p.1, ev) else p)
           else maps.2 ++ [(dGetT (JVal.obj fs) "debug_id" JVal.null, ev)])),
          ?_, hP.1, ?_⟩
        · simp only [hm2, except_ok_bind]
          rfl
        · intro p hp
          rcases mapSet_values hm2 p hp with h2 | h2
          · rw [h2]; exact hev
          · exact hP.2 p h2
      · rw [if_neg hr]
        exact ⟨maps, rfl, hP⟩

/-- The whole indexing pass succeeds on well-typed events and both maps
hold only input events. -/
theorem binderIndex_total {events0 : List Event}
    (hwt : ∀ e ∈ events0, wtEvent e = true) :
    ∃ maps, binderIndex events0 = .ok maps ∧
      (∀ p ∈ maps.1, p.2 ∈ events0) ∧ (∀ p ∈ maps.2, p.2 ∈ events0) := by
  unfold binderIndex
  have := foldlM_inv binderIndexStep
    (fun maps => (∀ p ∈ maps.1, p.2 ∈ events0) ∧ (∀ p ∈ maps.2, p.2 ∈ events0)) events0
    (fun maps ev hev hP => binderIndexStep_total hwt maps hP hev)
    ([], []) (by constructor <;> intro p hp <;> cases hp)
  exact this

/-- Hashable edge components make `ipc_graph[edge] = v` succeed. -/
theorem edgeSet_total (m : List ((JVal × JVal) × EdgeStats)) {a b : JVal}
    (h1 : hashableJ a = true) (h2 : hashableJ b = true) (v : EdgeStats) :
    ∃ r, edgeSet m (a, b) v = .ok r := by
  unfold edgeSet
  rw [if_pos (show _ = true by show (hashableJ a && hashableJ b) = true; rw [h1, h2]; rfl)]
  exact ⟨_, rfl⟩

theorem binderStep_total {events0 : List Event}
    (hwt : ∀ e ∈ events0, wtEvent e = true)
    {alloc_by_id received_by_id : PyMap Event}
    (hA : ∀ p ∈ alloc_by_id, p.2 ∈ events0)
    (hR : ∀ p ∈ received_by_id, p.2 ∈ events0)
    (st : BState) {ev : Event} (hev : ev ∈ events0) :
    ∃ st2, binderStep alloc_by_id received_by_id st ev = .ok st2 := by
  obtain ⟨hevs, hcomm, hdec, hdata⟩ := wtEvent_parts (hwt ev hev)
  obtain ⟨fs, hfs, hdbg, hcode, hsz⟩ := wtData_obj hdata
  unfold binderStep
  by_cases htx : pyEq (evGet ev "event" JVal.null) (JVal.str "binder_transaction") = true
  case neg =>
    rw [if_pos (by simp [Bool.not_eq_true] at htx ⊢; exact htx)]
    exact ⟨st, rfl⟩
  case pos =>
    rw [if_neg (by simp [htx])]
    have hdget : ∀ k d, dGet (JVal.obj fs) k d = .ok (dGetT (JVal.obj fs) k d) :=
      fun k d => rfl
    simp only [hfs, hdget, except_ok_bind]
    by_cases hrep : pyEq (dGetT (JVal.obj fs) "reply" JVal.null) (JVal.int 1) = true
    case pos =>
      rw [if_pos hrep]
      exact ⟨st, rfl⟩
    case neg =>
      rw [if_neg hrep]
      have hmgA : mapGetD alloc_by_id (dGetT (JVal.obj fs) "debug_id" JVal.null) []
          = .ok (mapGetT alloc_by_id (dGetT (JVal.obj fs) "debug_id" JVal.null) []) := by
        unfold mapGetD mapGetT
        rw [if_pos hdbg]
      have hmgR : mapGetD received_by_id (dGetT (JVal.obj fs) "debug_id" JVal.null) []
          = .ok (mapGetT received_by_id (dGetT (JVal.obj fs) "debug_id" JVal.null) []) := by
        unfold mapGetD mapGetT
        rw [if_pos hdbg]
      simp only [hmgA, hmgR, except_ok_bind]
      have hallocwt : wtData (mapGetT alloc_by_id (dGetT (JVal.obj fs) "debug_id" JVal.null) [])
          = true := by
        rcases mapGetT_mem alloc_by_id (dGetT (JVal.obj fs) "debug_id" JVal.null) []
          with h | ⟨p, hp, h⟩
        · rw [h]; rfl
        · rw [h]; exact (wtEvent_parts (hwt p.2 (hA p hp))).2.2.2
      obtain ⟨fsA, hfsA, hdbgA, hcodeA, hszA⟩ := wtData_obj hallocwt
      obtain ⟨tb, htb⟩ := pyAddInt_total st.total_bytes (intLikeB_pyOrZero hszA)
      obtain ⟨cu, hcu⟩ := counterAddIfCode_total st.code_usage hcode
      simp only [hfsA, show dGet (JVal.obj fsA) "data_size" (JVal.int 0)
          = .ok (dGetT (JVal.obj fsA) "data_size" (JVal.int 0)) from rfl,
        except_ok_bind, htb, hcu]
      have hrcomm : strOrAbsent
          (mapGetT received_by_id (dGetT (JVal.obj fs) "debug_id" JVal.null) []) "comm"
          = true := by
        rcases mapGetT_mem received_by_id (dGetT (JVal.obj fs) "debug_id" JVal.null) []
          with h | ⟨p, hp, h⟩
        · rw [h]; rfl
        · rw [h]; exact (wtEvent_parts (hwt p.2 (hR p hp))).2.1
      have hshash : hashableJ (evGet ev "comm" (JVal.str "unknown")) = true := by
        rcases evGet_str_or_default (JVal.str "unknown") hcomm with hd | ⟨s, hs⟩
        · rw [hd]; rfl
        · rw [hs]; rfl
      have hrhash : hashableJ (evGet
          (mapGetT received_by_id (dGetT (JVal.obj fs) "debug_id" JVal.null) []) "comm"
          (if pyTruthy (dGetT (JVal.obj fs) "to_pid" JVal.null)
           then JVal.str ("pid:" ++ jvalStr (dGetT (JVal.obj fs) "to_pid" JVal.null))
           else JVal.str "unknown")) = true := by
        rcases evGet_str_or_default (if pyTruthy (dGetT (JVal.obj fs) "to_pid" JVal.null)
            then JVal.str ("pid:" ++ jvalStr (dGetT (JVal.obj fs) "to_pid" JVal.null))
            else JVal.str "unknown") hrcomm with hd | ⟨s, hs⟩
        · rw [hd]
          by_cases ht : pyTruthy (dGetT (JVal.obj fs) "to_pid" JVal.null) = true
          · rw [if_pos ht]; rfl
          · rw [if_neg ht]; rfl
        · rw [hs]; rfl
      have hedge : edgeGet st.ipc (evGet ev "comm" (JVal.str "unknown"),
          evGet (mapGetT received_by_id (dGetT (JVal.obj fs) "debug_id" JVal.null) []) "comm"
          (if pyTruthy (dGetT (JVal.obj fs) "to_pid" JVal.null)
           then JVal.str ("pid:" ++ jvalStr (dGetT (JVal.obj fs) "to_pid" JVal.null))
           else JVal.str "unknown"))
          = .ok ((st.ipc.find? (fun p => pyEqPair p.1 (evGet ev "comm" (JVal.str "unknown"),
              evGet (mapGetT received_by_id (dGetT (JVal.obj fs) "debug_id" JVal.null) []) "comm"
          (if pyTruthy (dGetT (JVal.obj fs) "to_pid" JVal.null)
           then JVal.str ("pid:" ++ jvalStr (dGetT (JVal.obj fs) "to_pid" JVal.null))
           else JVal.str "unknown")))).map (fun p => p.2)) := by
        unfold edgeGet
        rw [if_pos (show _ = true by
          show (hashableJ (evGet ev "comm" (JVal.str "unknown")) &&
            hashableJ (evGet (mapGetT received_by_id (dGetT (JVal.obj fs) "debug_id" JVal.null) []) "comm"
          (if pyTruthy (dGetT (JVal.obj fs) "to_pid" JVal.null)
           then JVal.str ("pid:" ++ jvalStr (dGetT (JVal.obj fs) "to_pid" JVal.null))
           else JVal.str "unknown"))) = true
          rw [hshash, hrhash]
          rfl)]
      simp only [hedge, except_ok_bind]
      cases hfound : (st.ipc.find? (fun p => pyEqPair p.1 (evGet ev "comm" (JVal.str "unknown"),
          evGet (mapGetT received_by_id (dGetT (JVal.obj fs) "debug_id" JVal.null) []) "comm"
          (if pyTruthy (dGetT (JVal.obj fs) "to_pid" JVal.null)
           then JVal.str ("pid:" ++ jvalStr (dGetT (JVal.obj fs) "to_pid" JVal.null))
           else JVal.str "unknown")))).map (fun p => p.2) with
      | none =>
        obtain ⟨eb, heb⟩ := pyAddInt_total
          (({ count := 0, total_bytes := 0, codes := [] } : EdgeStats).total_bytes)
          (intLikeB_pyOrZero hszA)
        obtain ⟨ec, hec⟩ := counterAddIfCode_total
          (({ count := 0, total_bytes := 0, codes := [] } : EdgeStats).codes) hcode
        obtain ⟨ipc1, hipc1⟩ := edgeSet_total st.ipc hshash hrhash
          { count := ({ count := 0, total_bytes := 0, codes := [] } : EdgeStats).count + 1,
            total_bytes := eb, codes := ec }
        simp only [heb, hec, hipc1, except_ok_bind]
        exact ⟨_, rfl⟩
      | some s =>
        obtain ⟨eb, heb⟩ := pyAddInt_total s.total_bytes (intLikeB_pyOrZero hszA)
        obtain ⟨ec, hec⟩ := counterAddIfCode_total s.codes hcode
        obtain ⟨ipc1, hipc1⟩ := edgeSet_total st.ipc hshash hrhash
          { count := s.count + 1, total_bytes := eb, codes := ec }
        simp only [heb, hec, hipc1, except_ok_bind]
        exact ⟨_, rfl⟩

/-- Ordered insert with a fallible comparison succeeds when the new element
compares against every list member. -/
theorem orderedInsertM_total {α : Type} (lt : α → α → Except String Bool) (a : α) :
    ∀ (l : List α), (∀ b ∈ l, ∃ c, lt b a = .ok c) →
    ∃ r, orderedInsertM lt a l = .ok r ∧ r.Perm (a :: l)
  | [], _ => ⟨[a], rfl, List.Perm.refl _⟩
  | b :: bs, h => by
    obtain ⟨c, hc⟩ := h b (by simp)
    cases c with
    | true =>
      obtain ⟨r, hr, hperm⟩ := orderedInsertM_total lt a bs
        (fun x hx => h x (List.mem_cons_of_mem b hx))
      refine ⟨b :: r, ?_, ?_⟩
      · unfold orderedInsertM
        simp only [hc, except_ok_bind, if_true, hr]
        rfl
      · exact (hperm.cons b).trans (List.Perm.swap a b bs)
    | false =>
      refine ⟨a :: b :: bs, ?_, List.Perm.refl _⟩
      unfold orderedInsertM
      simp only [hc, except_ok_bind, if_false]
      rfl

theorem insertionSortM_total {α : Type} (lt : α → α → Except String Bool) :
    ∀ (l : List α),
    l.Pairwise (fun a b => (∃ c, lt a b = .ok c) ∧ (∃ c, lt b a = .ok c)) →
    ∃ r, insertionSortM lt l = .ok r ∧ r.Perm l
  | [], _ => ⟨[], rfl, List.Perm.refl _⟩
  | a :: as, h => by
    obtain ⟨hhead, htail⟩ := List.pairwise_cons.mp h
    obtain ⟨r, hr, hperm⟩ := insertionSortM_total lt as htail
    obtain ⟨r2, hr2, hperm2⟩ := orderedInsertM_total lt a r
      (fun b hb => (hhead b (hperm.subset hb)).2)
    refine ⟨r2, ?_, hperm2.trans (hperm.cons a)⟩
    unfold insertionSortM
    simp only [hr, except_ok_bind, hr2]

/-- Setting a string key preserves the resource-map invariant: all keys are
strings and pairwise distinct under `==`. -/
theorem mapSet_pres_inv {α : Type} {m r : PyMap α} {s : String} {v : α}
    (h : mapSet m (JVal.str s) v = .ok r)
    (hP : (∀ p ∈ m, ∃ t, p.1 = JVal.str t) ∧
          m.Pairwise (fun p q => pyEq p.1 q.1 = false)) :
    (∀ p ∈ r, ∃ t, p.1 = JVal.str t) ∧
      r.Pairwise (fun p q => pyEq p.1 q.1 = false) := by
  unfold mapSet at h
  rw [if_pos (show hashableJ (JVal.str s) = true from rfl)] at h
  cases h
  by_cases hany : m.any (fun p => pyEq p.1 (JVal.str s)) = true
  · rw [if_pos hany]
    constructor
    · intro p hp
      obtain ⟨q, hq, hpq⟩ := List.mem_map.mp hp
      have hq1 : p.1 = q.1 := by
        by_cases hc : pyEq q.1 (JVal.str s) = true
        · rw [if_pos hc] at hpq
          rw [← hpq]
        · rw [if_neg hc] at hpq
          rw [← hpq]
      rw [hq1]
      exact hP.1 q hq
    · rw [List.pairwise_map]
      refine hP.2.imp_of_mem ?_
      intro p q _ _ hpq
      have h1 : (if pyEq p.1 (JVal.str s) = true then (p.1, v) else p).1 = p.1 := by
        by_cases hc : pyEq p.1 (JVal.str s) = true
        · rw [if_pos hc]
        · rw [if_neg hc]
      have h2 : (if pyEq q.1 (JVal.str s) = true then (q.1, v) else q).1 = q.1 := by
        by_cases hc : pyEq q.1 (JVal.str s) = true
        · rw [if_pos hc]
        · rw [if_neg hc]
      rw [h1, h2]
      exact hpq
  · rw [if_neg hany]
    have hall : ∀ p ∈ m, pyEq p.1 (JVal.str s) = false := by
      intro p hp
      cases hc : pyEq p.1 (JVal.str s) with
      | false => rfl
      | true => exact absurd (List.any_eq_true.mpr ⟨p, hp, hc⟩) hany
    constructor
    · intro p hp
      rcases List.mem_append.mp hp with hp | hp
      · exact hP.1 p hp
      · simp only [List.mem_singleton] at hp
        exact ⟨s, by rw [hp]⟩
    · rw [List.pairwise_append]
      refine ⟨hP.2, List.pairwise_singleton _ _, ?_⟩
      intro p hp q hq
      simp only [List.mem_singleton] at hq
      rw [hq]
      exact hall p hp

/-- One resource-map step succeeds on a well-typed event and preserves the
string-keys invariant. -/
theorem resourceStep_inv {events0 : List Event}
    (hwt : ∀ e ∈ events0, wtEvent e = true)
    (m : PyMap (List (String × List String))) {ev : Event} (hev : ev ∈ events0)
    (hP : (∀ p ∈ m, ∃ t, p.1 = JVal.str t) ∧
          m.Pairwise (fun p q => pyEq p.1 q.1 = false)) :
    ∃ m2, resourceStep m ev = .ok m2 ∧
      (∀ p ∈ m2, ∃ t, p.1 = JVal.str t) ∧
      m2.Pairwise (fun p q => pyEq p.1 q.1 = false) := by
  obtain ⟨hevs, hcomm, hdec, hdata⟩ := wtEvent_parts (hwt ev hev)
  unfold resourceStep
  by_cases hty : pyEq (evGet ev "type" JVal.null) (JVal.str "syscall") = true
  case neg =>
    rw [if_pos (by simp [Bool.not_eq_true] at hty ⊢; exact hty)]
    exact ⟨m, rfl, hP⟩
  case pos =>
    rw [if_neg (by simp [hty])]
    obtain ⟨s0, hs0⟩ : ∃ s0, evGet ev "decoded" (JVal.str "") = JVal.str s0 := by
      rcases evGet_str_or_default (JVal.str "") hdec with hd | ⟨s, hs⟩
      · exact ⟨"", hd⟩
      · exact ⟨s, hs⟩
    simp only [hs0, show pyStrip (JVal.str s0) = .ok (strStrip s0) from rfl, except_ok_bind]
    by_cases hskip : (decide (strStrip s0 = "") || !(pyTruthy (evGet ev "comm" (JVal.str ""))))
      = true
    · rw [if_pos hskip]
      exact ⟨m, rfl, hP⟩
    · rw [if_neg hskip]
      obtain ⟨s1, hs1⟩ : ∃ s1, evGet ev "comm" (JVal.str "") = JVal.str s1 := by
        rcases evGet_str_or_default (JVal.str "") hcomm with hd | ⟨s, hs⟩
        · exact ⟨"", hd⟩
        · exact ⟨s, hs⟩
      rw [hs1]
      cases hkind : (if pyEq (evGet ev "event" (JVal.str "")) (JVal.str "openat")
            then some "openat"
            else if pyEq (evGet ev "event" (JVal.str "")) (JVal.str "connect")
            then some "connect"
            else if pyEq (evGet ev "event" (JVal.str "")) (JVal.str "execve")
            then some "execve"
            else none) with
      | none => exact ⟨m, rfl, hP⟩
      | some kind =>
        have hmg : mapGetD m (JVal.str s1) ([] : List (String × List String))
            = .ok (mapGetT m (JVal.str s1) []) := by
          unfold mapGetD mapGetT
          rw [if_pos (show hashableJ (JVal.str s1) = true from rfl)]
        have hms : mapSet m (JVal.str s1)
            (rmInnerAdd (mapGetT m (JVal.str s1) []) kind (strStrip s0))
            = .ok (if m.any (fun p => pyEq p.1 (JVal.str s1))
                   then m.map (fun p => if pyEq p.1 (JVal.str s1)
                     then (p.1, rmInnerAdd (mapGetT m (JVal.str s1) [])
                       kind (strStrip s0)) else p)
                   else m ++ [(JVal.str s1,
                     rmInnerAdd (mapGetT m (JVal.str s1) [])
                       kind (strStrip s0))]) := by
          unfold mapSet
          rw [if_pos (show hashableJ (JVal.str s1) = true from rfl)]
        refine ⟨(if m.any (fun p => pyEq p.1 (JVal.str s1))
                 then m.map (fun p => if pyEq p.1 (JVal.str s1)
                   then (p.1, rmInnerAdd (mapGetT m (JVal.str s1) [])
                     kind (strStrip s0)) else p)
                 else m ++ [(JVal.str s1,
                   rmInnerAdd (mapGetT m (JVal.str s1) [])
                     kind (strStrip s0))]), ?_, ?_⟩
        · simp only [hmg, except_ok_bind, hms]
        · exact mapSet_pres_inv hms hP

/-- `compute_resource_map` succeeds on well-typed events. -/
theorem compute_resource_map_total {events0 : List Event}
    (hwt : ∀ e ∈ events0, wtEvent e = true) :
    ∃ r, compute_resource_map events0 = .ok r := by
  obtain ⟨bc, hbc, hbcP⟩ := foldlM_inv resourceStep
    (fun m => (∀ p ∈ m, ∃ t, p.1 = JVal.str t) ∧
      m.Pairwise (fun p q => pyEq p.1 q.1 = false)) events0
    (fun m ev hev hP => resourceStep_inv hwt m hev hP)
    [] ⟨fun p hp => absurd hp (List.not_mem_nil p), List.Pairwise.nil⟩
  have hpair : bc.Pairwise
      (fun a b => (∃ c, rmItemLt a b = .ok c) ∧ (∃ c, rmItemLt b a = .ok c)) := by
    refine hbcP.2.imp_of_mem ?_
    intro a b ha hb hab
    obtain ⟨sa, hsa⟩ := hbcP.1 a ha
    obtain ⟨sb, hsb⟩ := hbcP.1 b hb
    have hba : pyEq b.1 a.1 = false := pyEq_false_symm hab
    constructor
    · refine ⟨decide (sa < sb), ?_⟩
      unfold rmItemLt
      rw [if_neg (by simp [hab])]
      rw [hsa, hsb]
      rfl
    · refine ⟨decide (sb < sa), ?_⟩
      unfold rmItemLt
      rw [if_neg (by simp [hba])]
      rw [hsa, hsb]
      rfl
  obtain ⟨items, hitems, _⟩ := insertionSortM_total rmItemLt bc hpair
  simp only [compute_resource_map, hbc, except_ok_bind, hitems]
  exact ⟨_, rfl⟩

/-- `compute_binder_analytics` succeeds on well-typed events. -/
theorem compute_binder_analytics_total {events0 : List Event}
    (hwt : ∀ e ∈ events0, wtEvent e = true) :
    ∃ b, compute_binder_analytics events0 = .ok b := by
  obtain ⟨maps, hmaps, hA, hR⟩ := binderIndex_total hwt
  obtain ⟨st, hst⟩ := foldlM_total (binderStep maps.1 maps.2) events0
    (fun st ev hev => binderStep_total hwt hA hR st hev) initBState
  simp only [compute_binder_analytics, hmaps, except_ok_bind, hst]
  exact ⟨_, rfl⟩

theorem sort_events_mem {events : List Event} {e : Event}
    (h : e ∈ sort_events_by_time events) : e ∈ events := by
  unfold sort_events_by_time at h
  split at h
  · exact h
  · split at h
    · exact (List.mem_insertionSort _).mp h
    · exact h

/-- An event whose `data` is not a dict (`compute_binder_analytics` crash). -/
def badData : Event := [("data", JVal.int 5)]

/-- A syscall event whose `decoded` is not a string (`compute_resource_map`
crash). -/
def badDecoded : Event :=
  [("type", JVal.str "syscall"), ("comm", JVal.str "proc"), ("decoded", JVal.int 5)]

/-- C2 counterexample: `compute_analytics` is not total on parsed
JSON-object events - a non-string `decoded` escapes as an uncaught
`AttributeError` from `decoded.strip()` in `compute_resource_map`, and a
non-dict `data` as an uncaught `AttributeError` from `data.get("debug_id")`
in `compute_binder_analytics`. -/
theorem c2_counterexample_unexpected_type_is_fatal :
    compute_analytics [badDecoded] = .error "AttributeError: .strip on non-str" ∧
    compute_analytics [badData] = .error "AttributeError: .get on non-dict" :=
  ⟨rfl, rfl⟩

/-- C2 (amended): on events whose `event`, `comm` and `decoded` fields are
strings when present and whose `data` is a well-typed dict when present,
the full analytics computation is total - missing fields fall back to
defaults and never raise. -/
theorem c2_compute_analytics_total_on_well_typed (events : List Event)
    (h : ∀ e ∈ events, wtEvent e = true) :
    ∃ s, compute_analytics events = .ok s := by
  have hwt : ∀ e ∈ sort_events_by_time events, wtEvent e = true :=
    fun e he => h e (sort_events_mem he)
  obtain ⟨rate, hrate⟩ := window_rate_total (sort_events_by_time events)
  obtain ⟨deep, hdeep⟩ := computeDeep_total (sort_events_by_time events)
    (fun e he => (wtEvent_parts (hwt e he)).1)
  obtain ⟨binder, hbinder⟩ := compute_binder_analytics_total hwt
  obtain ⟨ptree, hptree⟩ := compute_process_tree_ok (sort_events_by_time events)
  obtain ⟨rmap, hrmap⟩ := compute_resource_map_total hwt
  simp only [compute_analytics, hrate, hdeep, hbinder, hptree, hrmap, except_ok_bind]
  exact ⟨_, rfl⟩

/-- A small well-typed batch exercising the syscall, binder and resource
paths. -/
def c2Demo : List Event :=
  [[("type", JVal.str "syscall"), ("event", JVal.str "openat"), ("comm", JVal.str "app"),
    ("decoded", JVal.str "/tmp/x"), ("pid", JVal.int 3),
    ("data", JVal.obj [("ret", JVal.int (-2)), ("lat_us", JVal.int 5)])],
   [("event", JVal.str "binder_transaction"), ("comm", JVal.str "app"),
    ("data", JVal.obj [("debug_id", JVal.int 1), ("to_pid", JVal.int 9),
                       ("code", JVal.int 3)])]]

theorem c2_witness :
    (∀ e ∈ c2Demo, wtEvent e = true) ∧ ∃ s, compute_analytics c2Demo = .ok s :=
  ⟨by decide, c2_compute_analytics_total_on_well_typed c2Demo (by decide)⟩
